import Mathlib

/-!
Verification development for the lgrep semantic code-search engine.

The definitions below are a shallow embedding of the Rust sources:
  src/chunker.rs  (Chunk, IndexMetadata, Chunker)
  src/index.rs    (VectorIndex, SearchResult)
  src/indexer.rs  (Indexer, UpdateStats)
  src/filter.rs   (SearchFilter)
  src/history.rs  (QueryEntry, QueryHistory)

Modelling conventions:
  - Rust u64 / usize become Nat (no claim depends on wrap-around).
  - Rust f32 scores become Rat; the only score arithmetic in scope is
    1 - distance and order comparisons, which Rat models exactly.
  - Rust String stays String; str::to_lowercase is modelled for the
    ASCII range (Char.toLower), which covers every string in scope.
  - std::collections::HashMap<String, String> is modelled as an
    association list with unique keys; insert, remove and lookup are
    hmInsert, hmErase and hmGet.
  - The external ANN library (usearch) is out of scope per the spec;
    the store is modelled by its key set plus an abstract query
    function returning (key, cosine distance) pairs. add and remove
    of the external store are modelled as total.
  - File system and progress reporting (std::fs, indicatif) are out of
    scope; discovery output is a parameter of update_index and save is
    the identity.
  - Rust text.lines() output is taken as the input `lines : List String`
    of chunk_text; the source splits once at the top of chunk_text and
    only ever uses the line list afterwards.
-/

/-- ASCII model of Rust str::to_lowercase. -/
def lowerStr (s : String) : String :=
  ⟨s.data.map Char.toLower⟩

/-- Length in bytes of a line plus one for the newline separator,
matching `line.len() + 1` in chunker.rs. For the ASCII strings in scope
String.length equals the Rust byte length. -/
def lineLen (s : String) : Nat :=
  s.length + 1

/-- Sum of lineLen over a buffer, matching
`current_chunk_lines.iter().map(|l| l.len() + 1).sum()`. -/
def sumLineLen (l : List String) : Nat :=
  (l.map lineLen).sum

/-- Association-list model of HashMap lookup (`map.get`). -/
def hmGet (m : List (String × String)) (k : String) : Option String :=
  (m.find? (fun p => p.1 == k)).map (fun p => p.2)

/-- Association-list model of HashMap removal (`map.remove`). -/
def hmErase (m : List (String × String)) (k : String) : List (String × String) :=
  m.filter (fun p => ¬ p.1 == k)

/-- Association-list model of HashMap insertion (`map.insert`),
replacing any previous binding of the key. -/
def hmInsert (m : List (String × String)) (k v : String) : List (String × String) :=
  (k, v) :: hmErase m k

/-- File-name component of a path: everything after the last slash,
modelling Path::file_name for the relative paths in scope. -/
def fileNameChars (p : String) : List Char :=
  (p.data.reverse.takeWhile (fun c => c ≠ '/')).reverse

/-- Model of Rust Path::extension: the part of the file name after the
last dot; none when there is no dot or when the only dot is the leading
dot of a hidden file. -/
def pathExtension (p : String) : Option String :=
  let rev := (fileNameChars p).reverse
  if rev.any (fun c => c = '.') then
    let ext := rev.takeWhile (fun c => c ≠ '.')
    let rest := rev.dropWhile (fun c => c ≠ '.')
    if rest.tail = [] then none else some ⟨ext.reverse⟩
  else none

/-- Language table of detect_language in chunker.rs: fixed map from the
lower-cased file extension to a language tag. -/
def languageOfExt (ext : String) : Option String :=
  match ext with
  | "rs" => some "rust"
  | "py" | "pyi" | "pyw" => some "python"
  | "js" | "mjs" | "cjs" => some "javascript"
  | "ts" | "mts" | "cts" => some "typescript"
  | "jsx" => some "javascriptreact"
  | "tsx" => some "typescriptreact"
  | "go" => some "go"
  | "java" => some "java"
  | "kt" | "kts" => some "kotlin"
  | "c" | "h" => some "c"
  | "cpp" | "hpp" | "cc" | "cxx" | "hxx" => some "cpp"
  | "cs" => some "csharp"
  | "rb" | "rake" => some "ruby"
  | "php" => some "php"
  | "swift" => some "swift"
  | "scala" | "sc" => some "scala"
  | "sh" | "bash" | "zsh" => some "shell"
  | "sql" => some "sql"
  | "html" | "htm" => some "html"
  | "css" => some "css"
  | "scss" | "sass" => some "scss"
  | "vue" => some "vue"
  | "svelte" => some "svelte"
  | "json" => some "json"
  | "yaml" | "yml" => some "yaml"
  | "toml" => some "toml"
  | "md" | "mdx" => some "markdown"
  | "tf" | "hcl" => some "terraform"
  | "xml" => some "xml"
  | _ => none

/-- detect_language of chunker.rs: language from the lower-cased file
extension. -/
def detect_language (file_path : String) : Option String :=
  match pathExtension file_path with
  | none => none
  | some ext => languageOfExt (lowerStr ext)

/-- Chunk of chunker.rs: a contiguous slice of a source file. -/
structure Chunk where
  id : Nat
  text : String
  file_path : String
  start_line : Nat
  end_line : Nat
  file_hash : String
  language : Option String
deriving DecidableEq, Repr

/-- IndexMetadata of chunker.rs: sidecar metadata of the vector store. -/
structure IndexMetadata where
  chunks : List Chunk
  file_hashes : List (String × String)
  next_id : Nat
  model_name : String
  dimension : Nat
deriving DecidableEq, Repr

/-- IndexMetadata::new: fresh metadata, remaining fields defaulted. -/
def IndexMetadata.new (model_name : String) (dimension : Nat) : IndexMetadata :=
  ⟨[], [], 0, model_name, dimension⟩

/-- Chunker of chunker.rs with its two size parameters. -/
structure Chunker where
  chunk_size : Nat
  overlap : Nat
deriving DecidableEq, Repr

/-- Walk of calculate_overlap_lines over the reversed buffer: accumulate
line sizes from the end and stop at the first line whose inclusion would
exceed the overlap budget. -/
def calcOverlapGo (overlap : Nat) : List String → Nat → Nat → Nat
  | [], _size, count => count
  | l :: rest, size, count =>
    if overlap < size + lineLen l then count
    else calcOverlapGo overlap rest (size + lineLen l) (count + 1)

/-- Chunker::calculate_overlap_lines: number of buffer lines retained as
overlap, always at least one (`count.max(1)`). -/
def Chunker.calculate_overlap_lines (self : Chunker) (lines : List String) : Nat :=
  max (calcOverlapGo self.overlap lines.reverse 0 0) 1

/-- An emitted chunk before text joining: id, buffered lines and the
recorded start line. Chunker::chunk_text builds the Chunk record from
exactly these data (text is the newline join of the lines, end_line is
start_line + number of lines - 1). -/
structure RawChunk where
  id : Nat
  lines : List String
  startLine : Nat
deriving DecidableEq, Repr

/-- Loop state of Chunker::chunk_text: pending line buffer, its running
size, the recorded 1-indexed start line of the buffer and the next chunk
id. -/
structure ChunkState where
  buffer : List String
  size : Nat
  startLine : Nat
  nextId : Nat
deriving DecidableEq, Repr

/-- Main loop of Chunker::chunk_text over the remaining lines, with i the
0-based index of the current line. When appending the current line would
exceed chunk_size and the buffer is non-empty, the buffer is emitted, an
overlap tail of keep lines is retained, the recorded start line becomes
i + 1 - keep + 1 and the size is recomputed; in every case the current
line is then pushed. After the loop a non-empty buffer is emitted as the
final chunk. -/
def Chunker.chunkLoop (self : Chunker) : List String → Nat → ChunkState → List RawChunk
  | [], _i, st =>
    if st.buffer.isEmpty then [] else [⟨st.nextId, st.buffer, st.startLine⟩]
  | line :: rest, i, st =>
    if self.chunk_size < st.size + lineLen line ∧ st.buffer ≠ [] then
      let emitted : RawChunk := ⟨st.nextId, st.buffer, st.startLine⟩
      let keep := min (self.calculate_overlap_lines st.buffer) st.buffer.length
      let st2 : ChunkState :=
        if 0 < keep then
          let kept := st.buffer.drop (st.buffer.length - keep)
          ⟨kept ++ [line], sumLineLen kept + lineLen line, i + 2 - keep, st.nextId + 1⟩
        else
          ⟨[line], lineLen line, i + 2, st.nextId + 1⟩
      emitted :: self.chunkLoop rest (i + 1) st2
    else
      self.chunkLoop rest (i + 1) ⟨st.buffer ++ [line], st.size + lineLen line, st.startLine, st.nextId⟩

/-- Chunker::chunk_text restricted to the line/id bookkeeping: the list
of raw chunks produced from the input lines starting at start_id. -/
def Chunker.chunkRaw (self : Chunker) (lines : List String) (start_id : Nat) : List RawChunk :=
  self.chunkLoop lines 0 ⟨[], 0, 1, start_id⟩

/-- Chunk record built from a raw chunk, as in the two push sites of
Chunker::chunk_text: text is the newline join of the buffered lines and
end_line = start_line + number of lines - 1. -/
def emitChunk (file_path file_hash : String) (language : Option String) (r : RawChunk) : Chunk :=
  ⟨r.id, String.intercalate "\n" r.lines, file_path, r.startLine,
    r.startLine + r.lines.length - 1, file_hash, language⟩

/-- Chunker::chunk_text. The input is the line list produced by Rust
text.lines(); an empty line list returns no chunks. -/
def Chunker.chunk_text (self : Chunker) (lines : List String) (file_path file_hash : String)
    (start_id : Nat) : List Chunk :=
  let language := detect_language file_path
  if lines.isEmpty then []
  else (self.chunkRaw lines start_id).map (emitChunk file_path file_hash language)

/-- Error kinds of error.rs (the variants relevant to the claims carry
their payloads; the rest are tags). -/
inductive LgrepError where
  | Io : LgrepError
  | Embedding : String → LgrepError
  | Index : String → LgrepError
  | Serialization : LgrepError
  | Json : LgrepError
  | NoIndex : LgrepError
  | InvalidPath : String → LgrepError
  | Watch : String → LgrepError
  | Config : String → LgrepError
deriving DecidableEq, Repr

/-- Embedding vector, Rust Vec of f32 modelled over Rat. -/
abbrev Vec := List Rat

/-- Model of the external usearch ANN store: the set of stored keys plus
an abstract query function returning (key, cosine distance) pairs. The
library itself is out of scope per the spec, so its search behavior is
kept abstract; add and remove only maintain the key set. -/
structure AnnStore where
  keys : List Nat
  query : Vec → Nat → List (Nat × Rat)

/-- VectorIndex of index.rs: the ANN store plus its sidecar metadata.
The Config field only supplies model name and dimension to new, which
are stored in the metadata, so it is not repeated here. -/
structure VectorIndex where
  index : AnnStore
  metadata : IndexMetadata

/-- SearchResult of index.rs. -/
structure SearchResult where
  chunk : Chunk
  score : Rat
deriving DecidableEq, Repr

/-- VectorIndex::new: empty ANN store and fresh metadata carrying the
model name and dimension from the configuration. The query function of
the external store is a parameter of the model. -/
def VectorIndex.new (model_name : String) (dimension : Nat)
    (query : Vec → Nat → List (Nat × Rat)) : VectorIndex :=
  ⟨⟨[], query⟩, IndexMetadata.new model_name dimension⟩

/-- VectorIndex::add_chunks. Fails with an Index error when the chunk
and embedding counts differ (before any mutation, hence the original
index is returned unchanged); otherwise inserts every (chunk.id,
embedding) key, appends the chunks to the metadata, records
file_hashes[chunk.file_path] = chunk.file_hash for each chunk, and sets
next_id to the maximum stored chunk id (0 when there is none) plus one.
The mutable-reference Result of the source is modelled as the pair of
the resulting index and the Result value. -/
def VectorIndex.add_chunks (self : VectorIndex) (chunks : List Chunk) (embeddings : List Vec) :
    VectorIndex × Except LgrepError Unit :=
  if chunks.length ≠ embeddings.length then
    (self, .error (.Index "Chunks and embeddings count mismatch"))
  else
    let keys2 := self.index.keys ++ chunks.map (fun c => c.id)
    let chunks2 := self.metadata.chunks ++ chunks
    let hashes2 := chunks.foldl (fun m c => hmInsert m c.file_path c.file_hash)
      self.metadata.file_hashes
    let next2 := (chunks2.map (fun c => c.id)).foldl max 0 + 1
    (⟨⟨keys2, self.index.query⟩,
      ⟨chunks2, hashes2, next2, self.metadata.model_name, self.metadata.dimension⟩⟩,
     .ok ())

/-- VectorIndex::remove_file: collect the ids of the chunks of the file,
remove each id from the ANN store, drop those chunks from the metadata,
remove the file hash entry and return the removed ids. -/
def VectorIndex.remove_file (self : VectorIndex) (file_path : String) :
    VectorIndex × List Nat :=
  let removed_ids := (self.metadata.chunks.filter (fun c => c.file_path == file_path)).map
    (fun c => c.id)
  let keys2 := self.index.keys.filter (fun k => ¬ k ∈ removed_ids)
  let chunks2 := self.metadata.chunks.filter (fun c => ¬ c.file_path == file_path)
  let hashes2 := hmErase self.metadata.file_hashes file_path
  (⟨⟨keys2, self.index.query⟩,
    ⟨chunks2, hashes2, self.metadata.next_id, self.metadata.model_name,
      self.metadata.dimension⟩⟩,
   removed_ids)

/-- VectorIndex::search: empty result when the store is empty; otherwise
each ANN hit whose key matches a stored chunk becomes a SearchResult
with score 1 - distance, and the results are sorted by descending score
(the stable sort_by of the source is modelled by mergeSort). -/
def VectorIndex.search (self : VectorIndex) (query_embedding : Vec) (top_k : Nat) :
    List SearchResult :=
  if self.index.keys.length = 0 then []
  else
    let results := self.index.query query_embedding top_k
    let search_results := results.filterMap (fun kd =>
      (self.metadata.chunks.find? (fun c => c.id == kd.1)).map
        (fun c => SearchResult.mk c (1 - kd.2)))
    search_results.mergeSort (fun a b => decide (b.score ≤ a.score))

/-- VectorIndex::get_file_hash. -/
def VectorIndex.get_file_hash (self : VectorIndex) (file_path : String) : Option String :=
  hmGet self.metadata.file_hashes file_path

/-- VectorIndex::indexed_files: the keys of the file hash map. -/
def VectorIndex.indexed_files (self : VectorIndex) : List String :=
  self.metadata.file_hashes.map (fun p => p.1)

/-- VectorIndex::chunk_count. -/
def VectorIndex.chunk_count (self : VectorIndex) : Nat :=
  self.metadata.chunks.length

/-- VectorIndex::file_count. -/
def VectorIndex.file_count (self : VectorIndex) : Nat :=
  self.metadata.file_hashes.length

/-- VectorIndex::next_id. -/
def VectorIndex.next_id (self : VectorIndex) : Nat :=
  self.metadata.next_id

/-- FileToIndex of indexer.rs: one discovered file. The content is kept
as its line list (the form consumed by the Chunker); the hash is the
hex SHA-256 string computed during discovery. -/
structure FileToIndex where
  relative_path : String
  content : List String
  hash : String
deriving DecidableEq, Repr

/-- UpdateStats of indexer.rs. -/
structure UpdateStats where
  added : Nat
  updated : Nat
  removed : Nat
  unchanged : Nat
deriving DecidableEq, Repr

/-- Default UpdateStats (all counters zero). -/
def UpdateStats.default : UpdateStats := ⟨0, 0, 0, 0⟩

/-- Indexer::index_files: chunk every file starting from index.next_id,
advancing the id seed by the number of chunks produced; if any chunks
result, embed their texts (one vector per chunk, modelled by the
abstract embed function) and add them to the index. add_chunks cannot
fail here because the embedding list is a map over the chunk list. -/
def Indexer.index_files (chunker : Chunker) (embed : String → Vec)
    (index : VectorIndex) (files : List FileToIndex) : VectorIndex :=
  if files.isEmpty then index
  else
    let all_chunks := (files.foldl
      (fun (acc : List Chunk × Nat) f =>
        let cks := chunker.chunk_text f.content f.relative_path f.hash acc.2
        (acc.1 ++ cks, acc.2 + cks.length))
      ([], index.next_id)).1
    if all_chunks.isEmpty then index
    else (index.add_chunks all_chunks (all_chunks.map (fun c => embed c.text))).1

/-- State of the partition loop of Indexer::update_index. -/
structure UpdateLoopState where
  vi : VectorIndex
  stats : UpdateStats
  files_to_remove : List String
  files_to_add : List FileToIndex

/-- One iteration of the partition loop of Indexer::update_index: drop
the path from the pending-removal set, then classify the file as
unchanged (hash equal), updated (hash differs: evict its chunks and
enqueue) or added (no stored hash: enqueue). -/
def updateStep (st : UpdateLoopState) (file : FileToIndex) : UpdateLoopState :=
  let toRemove := st.files_to_remove.erase file.relative_path
  match st.vi.get_file_hash file.relative_path with
  | some existing_hash =>
    if existing_hash = file.hash then
      ⟨st.vi, ⟨st.stats.added, st.stats.updated, st.stats.removed, st.stats.unchanged + 1⟩,
        toRemove, st.files_to_add⟩
    else
      ⟨(st.vi.remove_file file.relative_path).1,
        ⟨st.stats.added, st.stats.updated + 1, st.stats.removed, st.stats.unchanged⟩,
        toRemove, st.files_to_add ++ [file]⟩
  | none =>
    ⟨st.vi, ⟨st.stats.added + 1, st.stats.updated, st.stats.removed, st.stats.unchanged⟩,
      toRemove, st.files_to_add ++ [file]⟩

/-- Indexer::update_index over the discovery output: partition the
discovered files against the stored hashes, remove the files that were
not rediscovered, re-index the enqueued files and return the statistics.
Discovery and save are file-system effects outside the model, so the
discovered files are a parameter and save is the identity. -/
def Indexer.update_index (chunker : Chunker) (embed : String → Vec)
    (index : VectorIndex) (files : List FileToIndex) : VectorIndex × UpdateStats :=
  let st0 : UpdateLoopState := ⟨index, UpdateStats.default, index.indexed_files, []⟩
  let st1 := files.foldl updateStep st0
  let vi2 := st1.files_to_remove.foldl (fun vi p => (vi.remove_file p).1) st1.vi
  let stats := ⟨st1.stats.added, st1.stats.updated, st1.files_to_remove.length,
    st1.stats.unchanged⟩
  let vi3 := Indexer.index_files chunker embed vi2 st1.files_to_add
  (vi3, stats)

/-- SearchFilter of filter.rs. -/
structure SearchFilter where
  extensions : Option (List String)
  languages : Option (List String)
  path_pattern : Option String
  exclude_pattern : Option String
  min_score : Option Rat
  max_results : Option Nat

/-- SearchFilter::new: the empty filter. -/
def SearchFilter.new : SearchFilter := ⟨none, none, none, none, none, none⟩

/-- Minimum-score clause of SearchFilter::matches: reject when the score
is strictly below min_score. -/
def SearchFilter.minScoreOk (self : SearchFilter) (score : Rat) : Bool :=
  match self.min_score with
  | some ms => ¬ score < ms
  | none => true

/-- Extension clause of SearchFilter::matches: the lower-cased file
extension must appear among the lower-cased extensions; a chunk without
an extension is rejected. -/
def SearchFilter.extensionOk (self : SearchFilter) (chunk : Chunk) : Bool :=
  match self.extensions with
  | some exts =>
    match (pathExtension chunk.file_path).map lowerStr with
    | some ext => exts.any (fun e => lowerStr e == ext)
    | none => false
  | none => true

/-- Language clause of SearchFilter::matches: the chunk language must
appear among the languages up to lower-casing; a chunk without a
language is rejected. -/
def SearchFilter.languageOk (self : SearchFilter) (chunk : Chunk) : Bool :=
  match self.languages with
  | some langs =>
    match chunk.language with
    | some lang => langs.any (fun l => lowerStr l == lowerStr lang)
    | none => false
  | none => true

/-- Include-pattern clause of SearchFilter::matches: a compiled
path_pattern must match the file path; a pattern that fails to compile
imposes no constraint. The external regex engine is modelled by the
abstract compile function, which returns none on invalid patterns. -/
def SearchFilter.pathPatternOk (self : SearchFilter)
    (compile : String → Option (String → Bool)) (chunk : Chunk) : Bool :=
  match self.path_pattern with
  | some pat =>
    match compile pat with
    | some regex => regex chunk.file_path
    | none => true
  | none => true

/-- Exclude-pattern clause of SearchFilter::matches: a compiled
exclude_pattern must not match the file path; a pattern that fails to
compile imposes no constraint. -/
def SearchFilter.excludePatternOk (self : SearchFilter)
    (compile : String → Option (String → Bool)) (chunk : Chunk) : Bool :=
  match self.exclude_pattern with
  | some pat =>
    match compile pat with
    | some regex => ¬ regex chunk.file_path
    | none => true
  | none => true

/-- SearchFilter::matches: the five clauses in source order, each
rejecting on mismatch. -/
def SearchFilter.matches (self : SearchFilter)
    (compile : String → Option (String → Bool)) (chunk : Chunk) (score : Rat) : Bool :=
  self.minScoreOk score && self.extensionOk chunk && self.languageOk chunk &&
    self.pathPatternOk compile chunk && self.excludePatternOk compile chunk

/-- QueryEntry of history.rs. -/
structure QueryEntry where
  query : String
  timestamp : Nat
  result_count : Nat
  filters : Option String
deriving DecidableEq, Repr

/-- MAX_HISTORY_SIZE of history.rs. -/
def MAX_HISTORY_SIZE : Nat := 100

/-- QueryHistory of history.rs: the stored queries, most recent last.
The history file path only feeds save, which is a file-system effect
outside the model. -/
structure QueryHistory where
  queries : List QueryEntry
deriving DecidableEq, Repr

/-- The while loop of QueryHistory::add_query pops from the front while
more than MAX_HISTORY_SIZE entries remain; its net effect is to drop the
oldest length - MAX_HISTORY_SIZE entries. -/
def trimHistory (l : List QueryEntry) : List QueryEntry :=
  l.drop (l.length - MAX_HISTORY_SIZE)

/-- QueryHistory::add_query: build the entry (the timestamp is the
current wall-clock time, a parameter of the model), return unchanged
when the query equals the most recent stored query, otherwise push it
at the back and trim the front down to MAX_HISTORY_SIZE entries. -/
def QueryHistory.add_query (self : QueryHistory) (query : String) (timestamp : Nat)
    (result_count : Nat) (filters : Option String) : QueryHistory :=
  let entry : QueryEntry := ⟨query, timestamp, result_count, filters⟩
  match self.queries.getLast? with
  | some last =>
    if last.query = query then self
    else ⟨trimHistory (self.queries ++ [entry])⟩
  | none => ⟨trimHistory (self.queries ++ [entry])⟩

/-- QueryHistory::recent: up to limit entries, most recent first. -/
def QueryHistory.recent (self : QueryHistory) (limit : Nat) : List QueryEntry :=
  self.queries.reverse.take limit

/-- QueryHistory::len. -/
def QueryHistory.len (self : QueryHistory) : Nat :=
  self.queries.length

/-- Trivial ANN query behavior for concrete instances: no hits. -/
def annQueryNone : Vec → Nat → List (Nat × Rat) := fun _ _ => []

/-- Trivial embedder for concrete instances. -/
def embedZero : String → Vec := fun _ => []

/-- Fresh empty index used by the concrete instances. -/
def viFresh : VectorIndex := VectorIndex.new "minilm" 384 annQueryNone

/-- One concrete chunk record used by the concrete instances. -/
def chunkA : Chunk := ⟨0, "fn main", "a.rs", 1, 1, "hashA", some "rust"⟩

/-- Index holding exactly chunkA, obtained by a successful add_chunks on
the fresh index. -/
def viWithA : VectorIndex := (viFresh.add_chunks [chunkA] [[1]]).1

/-- A discovered file with empty content (a source file of zero lines). -/
def fileEmptyContent : FileToIndex := ⟨"a.rs", [], "hash0"⟩

/-- A discovered file with one line of content. -/
def fileOneLine : FileToIndex := ⟨"b.rs", ["fn main"], "hash1"⟩

/-- The concrete filter of scenario 5 of the spec: extensions [rs],
languages [rust], minimum score 0.7. -/
def filterScenario5 : SearchFilter :=
  ⟨some ["rs"], some ["rust"], none, none, some (mkRat 7 10), none⟩

/-- The concrete chunk of scenario 5 of the spec: file src/main.rs,
language rust. -/
def chunkScenario5 : Chunk := ⟨0, "fn main", "src/main.rs", 1, 1, "h", some "rust"⟩

/-- A regex compile function for concrete instances that rejects every
pattern (models an invalid regex). -/
def compileNone : String → Option (String → Bool) := fun _ => none


/-- The overlap computation always retains at least one line. -/
theorem calculate_overlap_lines_pos (ck : Chunker) (lines : List String) :
    1 ≤ ck.calculate_overlap_lines lines :=
  Nat.le_max_right _ 1

/-- Range invariant of the chunking loop: provided the buffer holds at
most i lines and its recorded start line overshoots its true start by at
most one, every emitted raw chunk has a positive start line, a non-empty
line list and startLine + length bounded by the line count plus two. -/
theorem chunkLoop_range_aux (ck : Chunker) :
    ∀ (rest : List String) (i : Nat) (st : ChunkState),
      st.buffer.length ≤ i →
      st.startLine + st.buffer.length ≤ i + 2 →
      1 ≤ st.startLine →
      ∀ r ∈ ck.chunkLoop rest i st,
        1 ≤ r.startLine ∧ r.lines ≠ [] ∧
          r.startLine + r.lines.length ≤ i + rest.length + 2 := by
  intro rest
  induction rest with
  | nil =>
    intro i st hlen hub hs r hr
    simp only [Chunker.chunkLoop] at hr
    by_cases hb : st.buffer.isEmpty
    · simp [hb] at hr
    · simp only [hb, Bool.false_eq_true, if_false, List.mem_singleton] at hr
      subst hr
      exact ⟨hs, by simpa [List.isEmpty_iff] using hb, by simpa using hub⟩
  | cons line rest ih =>
    intro i st hlen hub hs r hr
    simp only [Chunker.chunkLoop] at hr
    by_cases hcond : ck.chunk_size < st.size + lineLen line ∧ st.buffer ≠ []
    · rw [if_pos hcond] at hr
      have hkeeplen : min (ck.calculate_overlap_lines st.buffer) st.buffer.length ≤
          st.buffer.length := Nat.min_le_right _ _
      have hkeep1 : 1 ≤ min (ck.calculate_overlap_lines st.buffer) st.buffer.length := by
        have h1 := calculate_overlap_lines_pos ck st.buffer
        have h2 : 1 ≤ st.buffer.length := by
          cases hbuf : st.buffer with
          | nil => exact absurd hbuf hcond.2
          | cons a t => simp
        exact le_min h1 h2
      rw [if_pos (by omega : 0 < min (ck.calculate_overlap_lines st.buffer)
        st.buffer.length)] at hr
      rcases List.mem_cons.mp hr with hr | hr
      · subst hr
        exact ⟨hs, hcond.2, by simp; omega⟩
      · have hrec := ih (i + 1)
          ⟨st.buffer.drop (st.buffer.length -
              min (ck.calculate_overlap_lines st.buffer) st.buffer.length) ++ [line],
            sumLineLen (st.buffer.drop (st.buffer.length -
              min (ck.calculate_overlap_lines st.buffer) st.buffer.length)) + lineLen line,
            i + 2 - min (ck.calculate_overlap_lines st.buffer) st.buffer.length,
            st.nextId + 1⟩
          (by simp [List.length_drop]; omega)
          (by simp [List.length_drop]; omega)
          (by simp; omega)
          r hr
        refine ⟨hrec.1, hrec.2.1, ?_⟩
        have := hrec.2.2
        simp at this ⊢
        omega
    · rw [if_neg hcond] at hr
      have hrec := ih (i + 1)
        ⟨st.buffer ++ [line], st.size + lineLen line, st.startLine, st.nextId⟩
        (by simp; omega) (by simp; omega) (by simp; omega) r hr
      refine ⟨hrec.1, hrec.2.1, ?_⟩
      have := hrec.2.2
      simp at this ⊢
      omega

/-- C1 (amended). For every input and every chunk produced by
Chunker::chunk_text, 1 <= start_line <= end_line holds, and end_line is
at most the number of input lines plus one. The "plus one" is forced by
the start-line recomputation `i + 1 - keep_count + 1` of chunker.rs,
which overshoots the retained tail by one line, so chunks after the
first report a start_line one greater than the true first line of their
text and the final chunk may report end_line = line count + 1. -/
theorem chunk_text_line_range_bounds (ck : Chunker) (lines : List String)
    (fp fh : String) (sid : Nat) :
    ∀ c ∈ ck.chunk_text lines fp fh sid,
      1 ≤ c.start_line ∧ c.start_line ≤ c.end_line ∧ c.end_line ≤ lines.length + 1 := by
  intro c hc
  simp only [Chunker.chunk_text] at hc
  by_cases he : lines.isEmpty
  · simp [he] at hc
  · simp only [he, Bool.false_eq_true, if_false, List.mem_map] at hc
    obtain ⟨r, hr, rfl⟩ := hc
    have h := chunkLoop_range_aux ck lines 0 ⟨[], 0, 1, sid⟩ (by simp) (by simp)
      (by simp) r hr
    have hlen : 1 ≤ r.lines.length := by
      cases hl : r.lines with
      | nil => exact absurd hl h.2.1
      | cons a t => simp
    simp only [emitChunk]
    refine ⟨h.1, ?_, ?_⟩
    · omega
    · have := h.2.2
      simp at this
      omega

/-- C1 counterexample: with chunk_size 5 and overlap 0 on the three
lines aaaa, bbbb, cccc, the final emitted chunk reports end_line 4,
which exceeds the total line count 3, refuting the claim that both
bounds always refer to lines present in the input. -/
theorem chunk_text_end_line_overflow :
    ∃ c ∈ (Chunker.mk 5 0).chunk_text ["aaaa", "bbbb", "cccc"] "f.rs" "h" 0,
      ["aaaa", "bbbb", "cccc"].length < c.end_line := by
  decide

/-- Witness for the amended C1 theorem at a concrete chunk of the
concrete three-line input. -/
theorem chunk_text_line_range_bounds_witness :
    1 ≤ (Chunk.mk 2 "bbbb\ncccc" "f.rs" 3 4 "h" (some "rust")).start_line ∧
      (Chunk.mk 2 "bbbb\ncccc" "f.rs" 3 4 "h" (some "rust")).start_line ≤
        (Chunk.mk 2 "bbbb\ncccc" "f.rs" 3 4 "h" (some "rust")).end_line ∧
      (Chunk.mk 2 "bbbb\ncccc" "f.rs" 3 4 "h" (some "rust")).end_line ≤
        ["aaaa", "bbbb", "cccc"].length + 1 :=
  chunk_text_line_range_bounds (Chunker.mk 5 0) ["aaaa", "bbbb", "cccc"] "f.rs" "h" 0
    (Chunk.mk 2 "bbbb\ncccc" "f.rs" 3 4 "h" (some "rust")) (by decide)

/-- Coverage invariant of the chunking loop: provided the recorded start
line is i + 1 on an empty buffer and does not exceed the line index
following the buffer on a non-empty one, every line number between the
recorded start line and the end of input is covered by some emitted raw
chunk. -/
theorem chunkLoop_coverage_aux (ck : Chunker) :
    ∀ (rest : List String) (i : Nat) (st : ChunkState),
      (st.buffer = [] → st.startLine = i + 1) →
      (st.buffer ≠ [] → i + 1 ≤ st.startLine + st.buffer.length) →
      ∀ ln, st.startLine ≤ ln → ln ≤ i + rest.length →
        ∃ r ∈ ck.chunkLoop rest i st,
          r.startLine ≤ ln ∧ ln ≤ r.startLine + r.lines.length - 1 := by
  intro rest
  induction rest with
  | nil =>
    intro i st hemp hne ln h1 h2
    simp only [Chunker.chunkLoop]
    by_cases hb : st.buffer.isEmpty
    · have := hemp (by simpa [List.isEmpty_iff] using hb)
      simp at h2
      omega
    · have hb2 : st.buffer ≠ [] := by simpa [List.isEmpty_iff] using hb
      have := hne hb2
      simp at h2
      refine ⟨⟨st.nextId, st.buffer, st.startLine⟩, by simp [hb], h1, by simp; omega⟩
  | cons line rest ih =>
    intro i st hemp hne ln h1 h2
    simp only [Chunker.chunkLoop]
    by_cases hcond : ck.chunk_size < st.size + lineLen line ∧ st.buffer ≠ []
    · rw [if_pos hcond]
      have hblen : 1 ≤ st.buffer.length := by
        cases hl : st.buffer with
        | nil => exact absurd hl hcond.2
        | cons a t => simp
      have hkeep1 : 1 ≤ min (ck.calculate_overlap_lines st.buffer) st.buffer.length :=
        le_min (calculate_overlap_lines_pos ck st.buffer) hblen
      rw [if_pos (by omega : 0 < min (ck.calculate_overlap_lines st.buffer)
        st.buffer.length)]
      have hlow := hne hcond.2
      by_cases hln : ln ≤ st.startLine + st.buffer.length - 1
      · exact ⟨⟨st.nextId, st.buffer, st.startLine⟩, List.mem_cons_self _ _, h1, hln⟩
      · have hrec := ih (i + 1)
          ⟨st.buffer.drop (st.buffer.length -
              min (ck.calculate_overlap_lines st.buffer) st.buffer.length) ++ [line],
            sumLineLen (st.buffer.drop (st.buffer.length -
              min (ck.calculate_overlap_lines st.buffer) st.buffer.length)) + lineLen line,
            i + 2 - min (ck.calculate_overlap_lines st.buffer) st.buffer.length,
            st.nextId + 1⟩
          (by simp) (by simp [List.length_drop]; omega) ln (by simp; omega)
          (by simp at h2 ⊢; omega)
        obtain ⟨r, hr, ha, hb⟩ := hrec
        exact ⟨r, List.mem_cons_of_mem _ hr, ha, hb⟩
    · rw [if_neg hcond]
      have hrec := ih (i + 1)
        ⟨st.buffer ++ [line], st.size + lineLen line, st.startLine, st.nextId⟩
        (by simp)
        (by
          intro _
          simp only [List.length_append, List.length_singleton]
          by_cases hb : st.buffer = []
          · have := hemp hb
            simp [hb]
            omega
          · have := hne hb
            omega)
        ln h1 (by simp at h2 ⊢; omega)
      exact hrec

/-- C2. Every line of the input is covered by the line range of at least
one chunk produced by Chunker::chunk_text. -/
theorem chunk_text_coverage (ck : Chunker) (lines : List String) (fp fh : String)
    (sid : Nat) (ln : Nat) (h1 : 1 ≤ ln) (h2 : ln ≤ lines.length) :
    ∃ c ∈ ck.chunk_text lines fp fh sid, c.start_line ≤ ln ∧ ln ≤ c.end_line := by
  have hne : lines ≠ [] := by
    intro h
    subst h
    simp at h2
    omega
  obtain ⟨r, hr, ha, hb⟩ := chunkLoop_coverage_aux ck lines 0 ⟨[], 0, 1, sid⟩
    (by simp) (by simp) ln h1 (by simpa using h2)
  have hmap : ck.chunk_text lines fp fh sid =
      (ck.chunkRaw lines sid).map (emitChunk fp fh (detect_language fp)) := by
    simp [Chunker.chunk_text, List.isEmpty_iff, hne]
  rw [hmap]
  exact ⟨emitChunk fp fh (detect_language fp) r, List.mem_map_of_mem _ hr, ha, hb⟩

/-- Witness for the C2 coverage theorem: line 2 of the concrete
three-line input is covered by some chunk. -/
theorem chunk_text_coverage_witness :
    ∃ c ∈ (Chunker.mk 100 20).chunk_text ["line 1", "line 2", "line 3"] "test.py"
      "abc123" 0, c.start_line ≤ 2 ∧ 2 ≤ c.end_line :=
  chunk_text_coverage (Chunker.mk 100 20) ["line 1", "line 2", "line 3"] "test.py"
    "abc123" 0 2 (by decide) (by decide)

/-- The first chunk emitted by the loop extends the current buffer: its
lines are the buffer followed by some later lines. -/
theorem chunkLoop_head_buffer (ck : Chunker) :
    ∀ (rest : List String) (i : Nat) (st : ChunkState) (r : RawChunk)
      (rs : List RawChunk),
      ck.chunkLoop rest i st = r :: rs → ∃ ext, r.lines = st.buffer ++ ext := by
  intro rest
  induction rest with
  | nil =>
    intro i st r rs h
    simp only [Chunker.chunkLoop] at h
    by_cases hb : st.buffer.isEmpty
    · simp [hb] at h
    · simp only [hb, Bool.false_eq_true, if_false, List.cons.injEq] at h
      exact ⟨[], by simp [← h.1]⟩
  | cons line rest ih =>
    intro i st r rs h
    simp only [Chunker.chunkLoop] at h
    by_cases hcond : ck.chunk_size < st.size + lineLen line ∧ st.buffer ≠ []
    · rw [if_pos hcond] at h
      have hr := (List.cons.injEq _ _ _ _).mp h
      exact ⟨[], by simp [← hr.1]⟩
    · rw [if_neg hcond] at h
      obtain ⟨ext, hext⟩ := ih (i + 1)
        ⟨st.buffer ++ [line], st.size + lineLen line, st.startLine, st.nextId⟩ r rs h
      exact ⟨[line] ++ ext, by simpa using hext⟩

/-- Dropping all but the last element of a non-empty list leaves exactly
its last element. -/
theorem drop_length_sub_one_eq_getLast {α : Type} :
    ∀ (l : List α), l ≠ [] → ∃ a, l.getLast? = some a ∧ l.drop (l.length - 1) = [a] := by
  intro l
  induction l with
  | nil => intro h; exact absurd rfl h
  | cons x t ih =>
    intro _
    cases ht : t with
    | nil => exact ⟨x, rfl, rfl⟩
    | cons y u =>
      obtain ⟨a, h1, h2⟩ := ih (by simp [ht])
      subst ht
      refine ⟨a, by simpa using h1, ?_⟩
      have hlen : (x :: y :: u).length - 1 = u.length + 1 := by simp
      rw [hlen]
      simpa using h2

/-- With overlap 0 the overlap computation on a non-empty buffer returns
exactly one line: the first line walked already exceeds the budget, so
the walk count is 0 and the minimum of one applies. -/
theorem calculate_overlap_lines_zero (ck : Chunker) (hov : ck.overlap = 0)
    (lines : List String) (hne : lines ≠ []) :
    ck.calculate_overlap_lines lines = 1 := by
  unfold Chunker.calculate_overlap_lines
  rw [hov]
  cases hrev : lines.reverse with
  | nil =>
    exact absurd (by simpa using congrArg List.reverse hrev) hne
  | cons a t =>
    simp [calcOverlapGo, lineLen]

/-- Chain invariant of the chunking loop: consecutive emitted chunks
share at least one line, and when the configured overlap is 0 the last
line of the earlier chunk is the first line of the later chunk. -/
theorem chunkLoop_chain_aux (ck : Chunker) :
    ∀ (rest : List String) (i : Nat) (st : ChunkState),
      List.Chain' (fun r r2 => (∃ l, l ∈ r.lines ∧ l ∈ r2.lines) ∧
        (ck.overlap = 0 → r.lines.getLast? = r2.lines.head?))
        (ck.chunkLoop rest i st) := by
  intro rest
  induction rest with
  | nil =>
    intro i st
    simp only [Chunker.chunkLoop]
    by_cases hb : st.buffer.isEmpty <;> simp [hb]
  | cons line rest ih =>
    intro i st
    simp only [Chunker.chunkLoop]
    by_cases hcond : ck.chunk_size < st.size + lineLen line ∧ st.buffer ≠ []
    · rw [if_pos hcond]
      have hblen : 1 ≤ st.buffer.length := by
        cases hl : st.buffer with
        | nil => exact absurd hl hcond.2
        | cons a t => simp
      have hkeep1 : 1 ≤ min (ck.calculate_overlap_lines st.buffer) st.buffer.length :=
        le_min (calculate_overlap_lines_pos ck st.buffer) hblen
      rw [if_pos (by omega : 0 < min (ck.calculate_overlap_lines st.buffer)
        st.buffer.length)]
      refine List.Chain'.cons' (ih (i + 1) _) ?_
      intro y hy
      cases hlist : ck.chunkLoop rest (i + 1)
        ⟨st.buffer.drop (st.buffer.length -
            min (ck.calculate_overlap_lines st.buffer) st.buffer.length) ++ [line],
          sumLineLen (st.buffer.drop (st.buffer.length -
            min (ck.calculate_overlap_lines st.buffer) st.buffer.length)) + lineLen line,
          i + 2 - min (ck.calculate_overlap_lines st.buffer) st.buffer.length,
          st.nextId + 1⟩ with
      | nil => rw [hlist] at hy; simp at hy
      | cons a tail =>
        rw [hlist] at hy
        simp only [List.head?_cons, Option.mem_def, Option.some.injEq] at hy
        subst hy
        obtain ⟨ext, hext⟩ := chunkLoop_head_buffer ck rest (i + 1) _ a tail hlist
        simp only at hext
        constructor
        · have hkne : st.buffer.drop (st.buffer.length -
              min (ck.calculate_overlap_lines st.buffer) st.buffer.length) ≠ [] := by
            have := List.length_drop (st.buffer.length -
              min (ck.calculate_overlap_lines st.buffer) st.buffer.length) st.buffer
            intro hk
            rw [hk] at this
            simp at this
            have hmin : min (ck.calculate_overlap_lines st.buffer) st.buffer.length ≤
              st.buffer.length := Nat.min_le_right _ _
            omega
          obtain ⟨b, u, hbu⟩ := List.exists_cons_of_ne_nil hkne
          refine ⟨b, ?_, ?_⟩
          · exact List.mem_of_mem_drop (hbu ▸ List.mem_cons_self b u)
          · rw [hext, hbu]
            simp
        · intro hov
          obtain ⟨a0, hl1, hl2⟩ := drop_length_sub_one_eq_getLast st.buffer hcond.2
          have hkeq : min (ck.calculate_overlap_lines st.buffer) st.buffer.length = 1 := by
            rw [calculate_overlap_lines_zero ck hov st.buffer hcond.2]
            omega
          rw [hkeq] at hext
          rw [hl2] at hext
          simp only [hext]
          simpa using hl1
    · rw [if_neg hcond]
      exact ih (i + 1) _

/-- C10 (amended). Consecutive chunks produced by the chunker always
share at least one text line: the retained overlap tail of the earlier
chunk (at least one line, since calculate_overlap_lines returns at least
1) is a prefix of the later chunk. When the configured overlap is 0,
exactly one line is retained, so the last line of the earlier chunk
equals the first line of the later chunk; for larger overlaps the
retained tail may hold several lines and the equality of last and first
lines need not hold. Stated over the raw chunks of Chunker::chunk_text,
whose line lists are joined by a single newline to form Chunk.text. -/
theorem chunk_consecutive_chunks_share_line (ck : Chunker) (lines : List String)
    (sid : Nat) :
    List.Chain' (fun r r2 => (∃ l, l ∈ r.lines ∧ l ∈ r2.lines) ∧
      (ck.overlap = 0 → r.lines.getLast? = r2.lines.head?)) (ck.chunkRaw lines sid) :=
  chunkLoop_chain_aux ck lines 0 ⟨[], 0, 1, sid⟩

/-- C10 counterexample: with chunk_size 7 and overlap 100 on the lines
aa, bb, cc the chunker emits the chunks [aa, bb] and [aa, bb, cc]; the
last line of the first chunk is bb while the first line of the second
chunk is aa, refuting the parenthetical claim that the last line of the
earlier chunk always equals the first line of the later chunk. -/
theorem chunk_overlap_last_first_mismatch :
    ¬ List.Chain' (fun r r2 => r.lines.getLast? = r2.lines.head?)
      ((Chunker.mk 7 100).chunkRaw ["aa", "bb", "cc"] 0) := by
  have h : (Chunker.mk 7 100).chunkRaw ["aa", "bb", "cc"] 0 =
      [⟨0, ["aa", "bb"], 1⟩, ⟨1, ["aa", "bb", "cc"], 2⟩] := by decide
  rw [h]
  intro hch
  have h2 := (List.chain'_cons.mp hch).1
  simp only [List.getLast?_cons_cons, List.getLast?_singleton, List.head?_cons] at h2
  exact absurd h2 (by decide)

/-- C8. add_chunks fails with the Index mismatch error whenever the
chunk and embedding counts differ, and the returned index is the
original one: the length check precedes every mutation, so the metadata
(chunks, file_hashes, next_id) is completely unchanged. -/
theorem add_chunks_mismatch_error (vi : VectorIndex) (chunks : List Chunk)
    (embeddings : List Vec) (h : chunks.length ≠ embeddings.length) :
    vi.add_chunks chunks embeddings =
      (vi, .error (.Index "Chunks and embeddings count mismatch")) := by
  simp [VectorIndex.add_chunks, h]

/-- Witness for the C8 theorem: one chunk against zero embeddings on the
fresh index. -/
theorem add_chunks_mismatch_error_witness :
    viFresh.add_chunks [chunkA] [] =
      (viFresh, .error (.Index "Chunks and embeddings count mismatch")) :=
  add_chunks_mismatch_error viFresh [chunkA] [] (by decide)

/-- Trimmed history never exceeds MAX_HISTORY_SIZE entries. -/
theorem trimHistory_length_le (l : List QueryEntry) :
    (trimHistory l).length ≤ MAX_HISTORY_SIZE := by
  simp [trimHistory, MAX_HISTORY_SIZE]
  omega

/-- add_query preserves the history size bound. -/
theorem add_query_length_le (h : QueryHistory) (q : String) (ts rc : Nat)
    (fs : Option String) (hlen : h.queries.length ≤ MAX_HISTORY_SIZE) :
    (h.add_query q ts rc fs).queries.length ≤ MAX_HISTORY_SIZE := by
  unfold QueryHistory.add_query
  split
  · split
    · exact hlen
    · exact trimHistory_length_le _
  · exact trimHistory_length_le _

/-- Any sequence of add_query calls starting from a history within the
size bound stays within the size bound. -/
theorem add_query_fold_length_le
    (ops : List (String × Nat × Nat × Option String)) :
    ∀ (h : QueryHistory), h.queries.length ≤ MAX_HISTORY_SIZE →
      (ops.foldl (fun acc op => acc.add_query op.1 op.2.1 op.2.2.1 op.2.2.2)
        h).queries.length ≤ MAX_HISTORY_SIZE := by
  induction ops with
  | nil => intro h hlen; exact hlen
  | cons op rest ih =>
    intro h hlen
    exact ih _ (add_query_length_le h op.1 op.2.1 op.2.2.1 op.2.2.2 hlen)

/-- C9. The query history (i) never exceeds 100 entries under any
sequence of add_query calls from the empty history, (ii) coalesces a
query equal to the most recent stored query into no change, (iii) evicts
the oldest entry and appends the newest at the back when full, and (iv)
on the concrete scenario add "q", add "q", add "r" holds 2 entries with
recent order r before q (after the first two adds it holds 1 entry). -/
theorem query_history_spec :
    (∀ (ops : List (String × Nat × Nat × Option String)),
      (ops.foldl (fun acc op => acc.add_query op.1 op.2.1 op.2.2.1 op.2.2.2)
        (QueryHistory.mk [])).queries.length ≤ MAX_HISTORY_SIZE) ∧
    (∀ (h : QueryHistory) (e : QueryEntry) (q : String) (ts rc : Nat)
      (fs : Option String), h.queries.getLast? = some e → e.query = q →
      h.add_query q ts rc fs = h) ∧
    (∀ (h : QueryHistory) (e : QueryEntry) (q : String) (ts rc : Nat)
      (fs : Option String), h.queries.length = MAX_HISTORY_SIZE →
      h.queries.getLast? = some e → e.query ≠ q →
      (h.add_query q ts rc fs).queries = h.queries.tail ++ [⟨q, ts, rc, fs⟩]) ∧
    ((((QueryHistory.mk []).add_query "q" 11 5 none).add_query "q" 12 3 none).len = 1 ∧
      ((((QueryHistory.mk []).add_query "q" 11 5 none).add_query "q" 12 3
        none).add_query "r" 13 2 none).len = 2 ∧
      (((((QueryHistory.mk []).add_query "q" 11 5 none).add_query "q" 12 3
        none).add_query "r" 13 2 none).recent 10).map (fun e => e.query) = ["r", "q"]) := by
  refine ⟨?_, ?_, ?_, by decide⟩
  · intro ops
    exact add_query_fold_length_le ops (QueryHistory.mk []) (by simp)
  · intro h e q ts rc fs hlast hq
    unfold QueryHistory.add_query
    rw [hlast]
    simp [hq]
  · intro h e q ts rc fs hlen hlast hq
    have hne : h.queries ≠ [] := by
      intro hnil
      rw [hnil] at hlen
      simp [MAX_HISTORY_SIZE] at hlen
    unfold QueryHistory.add_query
    rw [hlast]
    simp only [hq, if_false, ite_false]
    simp only [trimHistory, List.length_append, List.length_singleton, hlen]
    have hdrop : MAX_HISTORY_SIZE + 1 - MAX_HISTORY_SIZE = 1 := by omega
    rw [hdrop, List.drop_one]
    cases hql : h.queries with
    | nil => exact absurd hql hne
    | cons a t => rfl

/-- Witness for the C9 theorem: coalescing a duplicate of the most
recent query on a concrete one-entry history leaves it unchanged. -/
theorem query_history_spec_witness :
    (QueryHistory.mk [⟨"q", 11, 5, none⟩]).add_query "q" 12 3 none =
      QueryHistory.mk [⟨"q", 11, 5, none⟩] :=
  query_history_spec.2.1 (QueryHistory.mk [⟨"q", 11, 5, none⟩]) ⟨"q", 11, 5, none⟩
    "q" 12 3 none (by decide) rfl

/-- C7. SearchFilter::matches rejects on the first failing clause:
a score below min_score rejects; with extensions set, a chunk without an
extension rejects and a chunk whose lower-cased extension is outside the
lower-cased list rejects; with languages set, a chunk without a language
rejects; a path_pattern or exclude_pattern that fails to compile imposes
no constraint (the filter behaves as if the pattern were unset); and on
the concrete scenario the chunk at src/main.rs with language rust and
score 0.8 passes the filter with extensions [rs], languages [rust] and
min_score 0.7, while score 0.6 fails it. -/
theorem searchfilter_matches_spec :
    (∀ (compile : String → Option (String → Bool)) (f : SearchFilter) (c : Chunk)
      (s ms : Rat), f.min_score = some ms → s < ms →
      f.matches compile c s = false) ∧
    (∀ (compile : String → Option (String → Bool)) (f : SearchFilter) (c : Chunk)
      (s : Rat) (exts : List String), f.extensions = some exts →
      pathExtension c.file_path = none → f.matches compile c s = false) ∧
    (∀ (compile : String → Option (String → Bool)) (f : SearchFilter) (c : Chunk)
      (s : Rat) (exts : List String) (ext : String), f.extensions = some exts →
      pathExtension c.file_path = some ext →
      (∀ e ∈ exts, lowerStr e ≠ lowerStr ext) → f.matches compile c s = false) ∧
    (∀ (compile : String → Option (String → Bool)) (f : SearchFilter) (c : Chunk)
      (s : Rat) (langs : List String), f.languages = some langs →
      c.language = none → f.matches compile c s = false) ∧
    (∀ (compile : String → Option (String → Bool)) (f : SearchFilter) (c : Chunk)
      (s : Rat) (pat : String), f.path_pattern = some pat → compile pat = none →
      f.matches compile c s =
        (SearchFilter.mk f.extensions f.languages none f.exclude_pattern f.min_score
          f.max_results).matches compile c s) ∧
    (∀ (compile : String → Option (String → Bool)) (f : SearchFilter) (c : Chunk)
      (s : Rat) (pat : String), f.exclude_pattern = some pat → compile pat = none →
      f.matches compile c s =
        (SearchFilter.mk f.extensions f.languages f.path_pattern none f.min_score
          f.max_results).matches compile c s) ∧
    (∀ (compile : String → Option (String → Bool)),
      filterScenario5.matches compile chunkScenario5 (mkRat 8 10) = true ∧
      filterScenario5.matches compile chunkScenario5 (mkRat 6 10) = false) := by
  refine ⟨?_, ?_, ?_, ?_, ?_, ?_, ?_⟩
  · intro compile f c s ms hms hlt
    simp [SearchFilter.matches, SearchFilter.minScoreOk, hms, hlt]
  · intro compile f c s exts hexts hext
    simp [SearchFilter.matches, SearchFilter.extensionOk, hexts, hext]
  · intro compile f c s exts ext hexts hext hnotin
    simp [SearchFilter.matches, SearchFilter.extensionOk, hexts, hext]
    intro _ x hx hcontra
    exact absurd hcontra (hnotin x hx)
  · intro compile f c s langs hlangs hlang
    simp [SearchFilter.matches, SearchFilter.languageOk, hlangs, hlang]
  · intro compile f c s pat hpat hcomp
    simp [SearchFilter.matches, SearchFilter.pathPatternOk, SearchFilter.minScoreOk,
      SearchFilter.extensionOk, SearchFilter.languageOk, SearchFilter.excludePatternOk,
      hpat, hcomp]
  · intro compile f c s pat hpat hcomp
    simp [SearchFilter.matches, SearchFilter.excludePatternOk, SearchFilter.minScoreOk,
      SearchFilter.extensionOk, SearchFilter.languageOk, SearchFilter.pathPatternOk,
      hpat, hcomp]
  · intro compile
    exact ⟨rfl, rfl⟩

/-- Witness for the C7 theorem: a concrete filter with min_score 1
rejects a concrete chunk at score 0, and the concrete scenario filter
passes and fails at the stated scores. -/
theorem searchfilter_matches_spec_witness :
    (SearchFilter.mk none none none none (some 1) none).matches compileNone chunkA
        0 = false ∧
      filterScenario5.matches compileNone chunkScenario5 (mkRat 8 10) = true ∧
      filterScenario5.matches compileNone chunkScenario5 (mkRat 6 10) = false :=
  ⟨searchfilter_matches_spec.1 compileNone
      (SearchFilter.mk none none none none (some 1) none) chunkA 0 1 rfl (by decide),
    (searchfilter_matches_spec.2.2.2.2.2.2 compileNone).1,
    (searchfilter_matches_spec.2.2.2.2.2.2 compileNone).2⟩

/-- Looking up a key just erased yields none. -/
theorem hmGet_erase_self (m : List (String × String)) (k : String) :
    hmGet (hmErase m k) k = none := by
  have h : (hmErase m k).find? (fun p => p.1 == k) = none := by
    rw [List.find?_eq_none]
    intro p hp
    have h2 := (List.mem_filter.mp hp).2
    simp at h2 ⊢
    exact h2
  simp [hmGet, h]

/-- A cons cell whose key differs from the query is skipped by lookup. -/
theorem hmGet_cons_skip (p : String × String) (t : List (String × String)) (q : String)
    (h : ¬ p.1 = q) : hmGet (p :: t) q = hmGet t q := by
  unfold hmGet
  rw [List.find?_cons_of_neg]
  simpa using h

/-- A cons cell whose key equals the query is returned by lookup. -/
theorem hmGet_cons_hit (p : String × String) (t : List (String × String)) (q : String)
    (h : p.1 = q) : hmGet (p :: t) q = some p.2 := by
  unfold hmGet
  rw [List.find?_cons_of_pos]
  · rfl
  · simpa using h

/-- Erasing one key leaves lookups of other keys unchanged. -/
theorem hmGet_erase_ne (m : List (String × String)) (k q : String) (h : q ≠ k) :
    hmGet (hmErase m k) q = hmGet m q := by
  induction m with
  | nil => rfl
  | cons p t ih =>
    by_cases hp : p.1 = k
    · have he : hmErase (p :: t) k = hmErase t k := by
        simp [hmErase, List.filter_cons, hp]
      rw [he, ih, hmGet_cons_skip p t q (by rw [hp]; exact fun hc => h hc.symm)]
    · have he : hmErase (p :: t) k = p :: hmErase t k := by
        simp [hmErase, List.filter_cons, hp]
      rw [he]
      by_cases hpq : p.1 = q
      · rw [hmGet_cons_hit _ _ _ hpq, hmGet_cons_hit _ _ _ hpq]
      · rw [hmGet_cons_skip _ _ _ hpq, hmGet_cons_skip _ _ _ hpq, ih]

/-- Looking up a key just inserted yields the inserted value. -/
theorem hmGet_insert_self (m : List (String × String)) (k v : String) :
    hmGet (hmInsert m k v) k = some v := by
  simp only [hmInsert]
  exact hmGet_cons_hit (k, v) _ k rfl

/-- Inserting one key leaves lookups of other keys unchanged. -/
theorem hmGet_insert_ne (m : List (String × String)) (k v q : String) (h : q ≠ k) :
    hmGet (hmInsert m k v) q = hmGet m q := by
  simp only [hmInsert]
  rw [hmGet_cons_skip (k, v) _ q (fun hc => h hc.symm), hmGet_erase_ne m k q h]

/-- A lookup yields none exactly when the key is absent. -/
theorem hmGet_eq_none_iff (m : List (String × String)) (q : String) :
    hmGet m q = none ↔ q ∉ m.map (fun p => p.1) := by
  induction m with
  | nil => simp [hmGet]
  | cons p t ih =>
    by_cases hpq : p.1 = q
    · rw [hmGet_cons_hit _ _ _ hpq]
      simp [hpq]
    · rw [hmGet_cons_skip _ _ _ hpq]
      have hqp : ¬ q = p.1 := fun hc => hpq hc.symm
      simp [List.mem_cons, hqp, ih]

/-- Erasure preserves distinctness of the stored keys. -/
theorem nodupKeys_erase (m : List (String × String)) (k : String)
    (h : (m.map (fun p => p.1)).Nodup) :
    ((hmErase m k).map (fun p => p.1)).Nodup :=
  List.Nodup.sublist (List.Sublist.map _ (List.filter_sublist m)) h

/-- Insertion preserves distinctness of the stored keys. -/
theorem nodupKeys_insert (m : List (String × String)) (k v : String)
    (h : (m.map (fun p => p.1)).Nodup) :
    ((hmInsert m k v).map (fun p => p.1)).Nodup := by
  simp only [hmInsert, List.map_cons]
  refine List.nodup_cons.mpr ⟨?_, nodupKeys_erase m k h⟩
  intro hk
  obtain ⟨p, hp, hpk⟩ := List.mem_map.mp hk
  have := (List.mem_filter.mp hp).2
  simp [hpk] at this

/-- C5. remove_file returns exactly the ids of the chunks whose path
equals the argument, keeps exactly the chunks of other files (with all
their fields unchanged, since they are the same records), clears the
file hash entry of the argument while leaving every other entry
unchanged, removes exactly the returned ids from the ANN store, and
leaves next_id untouched. -/
theorem remove_file_spec (vi : VectorIndex) (p : String) :
    (vi.remove_file p).2 =
        (vi.metadata.chunks.filter (fun c => c.file_path == p)).map (fun c => c.id) ∧
      (∀ c : Chunk, c ∈ (vi.remove_file p).1.metadata.chunks ↔
        c ∈ vi.metadata.chunks ∧ c.file_path ≠ p) ∧
      (vi.remove_file p).1.get_file_hash p = none ∧
      (∀ q : String, q ≠ p →
        (vi.remove_file p).1.get_file_hash q = vi.get_file_hash q) ∧
      (∀ k : Nat, k ∈ (vi.remove_file p).1.index.keys ↔
        k ∈ vi.index.keys ∧ k ∉ (vi.remove_file p).2) ∧
      (vi.remove_file p).1.metadata.next_id = vi.metadata.next_id := by
  refine ⟨rfl, ?_, ?_, ?_, ?_, rfl⟩
  · intro c
    simp [VectorIndex.remove_file, List.mem_filter]
  · exact hmGet_erase_self _ _
  · intro q hq
    exact hmGet_erase_ne _ _ _ hq
  · intro k
    simp [VectorIndex.remove_file, List.mem_filter]

/-- Witness for the C5 theorem: on the concrete one-chunk index, the
hash entry of the other file b.rs survives removal of a.rs. -/
theorem remove_file_spec_witness :
    (viWithA.remove_file "a.rs").1.get_file_hash "b.rs" =
      viWithA.get_file_hash "b.rs" :=
  (remove_file_spec viWithA "a.rs").2.2.2.1 "b.rs" (by decide)

/-- Every element of a list is bounded by a left fold of max. -/
theorem foldl_max_le_aux (l : List Nat) :
    ∀ (a : Nat), a ≤ l.foldl max a ∧ ∀ x ∈ l, x ≤ l.foldl max a := by
  induction l with
  | nil =>
    intro a
    exact ⟨le_refl a, by simp⟩
  | cons y t ih =>
    intro a
    have h := ih (max a y)
    refine ⟨le_trans (le_max_left a y) h.1, ?_⟩
    intro x hx
    rcases List.mem_cons.mp hx with hxy | hx
    · rw [hxy]
      exact le_trans (le_max_right a y) h.1
    · exact h.2 x hx

/-- C4 (amended). After new, next_id is 0 and the chunk list is empty.
A successful add_chunks sets next_id to the maximum stored chunk id
(taking 0 when there is none) plus one, hence next_id ends strictly
greater than every stored chunk id. remove_file leaves next_id
unchanged, so the strict bound over the remaining chunks persists; in
particular next_id is not reset to 0 when removal (or an empty add)
leaves the chunk list empty, which is where the claim as stated fails. -/
theorem vectorindex_next_id_spec :
    (∀ (mn : String) (dim : Nat) (q : Vec → Nat → List (Nat × Rat)),
      (VectorIndex.new mn dim q).metadata.next_id = 0 ∧
        (VectorIndex.new mn dim q).metadata.chunks = []) ∧
    (∀ (vi : VectorIndex) (chunks : List Chunk) (embeddings : List Vec),
      (vi.add_chunks chunks embeddings).2 = .ok () →
      (∀ c ∈ (vi.add_chunks chunks embeddings).1.metadata.chunks,
          c.id < (vi.add_chunks chunks embeddings).1.metadata.next_id) ∧
        (vi.add_chunks chunks embeddings).1.metadata.next_id =
          ((vi.add_chunks chunks embeddings).1.metadata.chunks.map
            (fun c => c.id)).foldl max 0 + 1) ∧
    (∀ (vi : VectorIndex) (p : String),
      (∀ c ∈ vi.metadata.chunks, c.id < vi.metadata.next_id) →
      (∀ c ∈ (vi.remove_file p).1.metadata.chunks,
          c.id < (vi.remove_file p).1.metadata.next_id) ∧
        (vi.remove_file p).1.metadata.next_id = vi.metadata.next_id) := by
  refine ⟨fun mn dim q => ⟨rfl, rfl⟩, ?_, ?_⟩
  · intro vi chunks embeddings hok
    by_cases hlen : chunks.length ≠ embeddings.length
    · rw [add_chunks_mismatch_error vi chunks embeddings hlen] at hok
      simp at hok
    · have hres : (vi.add_chunks chunks embeddings).1.metadata.next_id =
          (((vi.metadata.chunks ++ chunks).map (fun c => c.id)).foldl max 0) + 1 := by
        simp [VectorIndex.add_chunks, hlen]
      have hchk : (vi.add_chunks chunks embeddings).1.metadata.chunks =
          vi.metadata.chunks ++ chunks := by
        simp [VectorIndex.add_chunks, hlen]
      constructor
      · intro c hc
        rw [hchk] at hc
        rw [hres]
        have hb := (foldl_max_le_aux ((vi.metadata.chunks ++ chunks).map
          (fun c => c.id)) 0).2 c.id (List.mem_map_of_mem _ hc)
        omega
      · rw [hres, hchk]
  · intro vi p hinv
    refine ⟨?_, rfl⟩
    intro c hc
    have hm := ((remove_file_spec vi p).2.1 c).mp hc
    have := hinv c hm.1
    simpa [VectorIndex.remove_file] using this

/-- C4 counterexample: starting from the fresh index, add one chunk with
id 0 (a successful add_chunks, which sets next_id to 1), then remove its
file. The chunk list becomes empty while next_id stays 1, so the
claimed disjunct "next_id equals 0 when metadata.chunks is empty" fails
after a successful public operation. -/
theorem next_id_nonzero_when_empty :
    (viWithA.remove_file "a.rs").1.metadata.chunks = [] ∧
      (viWithA.remove_file "a.rs").1.metadata.next_id = 1 := by
  constructor
  · decide
  · decide

/-- Witness for the amended C4 theorem: on the concrete one-chunk index
the invariant is preserved by remove_file and next_id is unchanged. -/
theorem vectorindex_next_id_spec_witness :
    (∀ c ∈ (viWithA.remove_file "a.rs").1.metadata.chunks,
        c.id < (viWithA.remove_file "a.rs").1.metadata.next_id) ∧
      (viWithA.remove_file "a.rs").1.metadata.next_id = viWithA.metadata.next_id :=
  vectorindex_next_id_spec.2.2 viWithA "a.rs" (by decide)

/-- C6. search returns the empty list on an empty store. Otherwise every
returned result arises from an ANN hit (key, distance) with a stored
chunk of that id and carries score 1 - distance; every ANN hit whose key
has a stored chunk contributes a result (so exactly the hits whose key
matches no stored chunk id are silently dropped); and the result list is
sorted by descending score. -/
theorem vectorindex_search_spec (vi : VectorIndex) (qv : Vec) (top_k : Nat) :
    (vi.index.keys = [] → vi.search qv top_k = []) ∧
      (∀ r ∈ vi.search qv top_k, ∃ kd ∈ vi.index.query qv top_k,
        r.score = 1 - kd.2 ∧ r.chunk ∈ vi.metadata.chunks ∧ r.chunk.id = kd.1) ∧
      (vi.index.keys ≠ [] → ∀ kd ∈ vi.index.query qv top_k,
        (∃ c ∈ vi.metadata.chunks, c.id = kd.1) →
        ∃ r ∈ vi.search qv top_k, r.score = 1 - kd.2 ∧ r.chunk.id = kd.1) ∧
      List.Pairwise (fun a b => b.score ≤ a.score) (vi.search qv top_k) := by
  by_cases hk : vi.index.keys.length = 0
  · have hempty : vi.search qv top_k = [] := by
      simp [VectorIndex.search, hk]
    refine ⟨fun _ => hempty, ?_, ?_, ?_⟩
    · intro r hr
      rw [hempty] at hr
      simp at hr
    · intro hne
      exact absurd (List.length_eq_zero.mp hk) hne
    · rw [hempty]
      exact List.Pairwise.nil
  · have hsearch : vi.search qv top_k =
        ((vi.index.query qv top_k).filterMap (fun kd =>
          (vi.metadata.chunks.find? (fun c => c.id == kd.1)).map
            (fun c => SearchResult.mk c (1 - kd.2)))).mergeSort
          (fun a b => decide (b.score ≤ a.score)) := by
      simp [VectorIndex.search, hk]
    refine ⟨?_, ?_, ?_, ?_⟩
    · intro hnil
      rw [hnil] at hk
      simp at hk
    · intro r hr
      rw [hsearch] at hr
      have hr2 := List.mem_mergeSort.mp hr
      obtain ⟨kd, hkd, hf⟩ := List.mem_filterMap.mp hr2
      obtain ⟨c, hc, hcr⟩ := Option.map_eq_some'.mp hf
      have hcm := List.mem_of_find?_eq_some hc
      have hcp := List.find?_some hc
      refine ⟨kd, hkd, ?_, ?_, ?_⟩
      · rw [← hcr]
      · rw [← hcr]
        exact hcm
      · rw [← hcr]
        simpa using hcp
    · intro _ kd hkd hex
      rw [hsearch]
      have hfind : (vi.metadata.chunks.find? (fun c => c.id == kd.1)).isSome := by
        rw [List.find?_isSome]
        obtain ⟨c, hc, hid⟩ := hex
        exact ⟨c, hc, by simpa using hid⟩
      obtain ⟨c0, hc0⟩ := Option.isSome_iff_exists.mp hfind
      refine ⟨SearchResult.mk c0 (1 - kd.2), ?_, rfl, ?_⟩
      · rw [List.mem_mergeSort]
        exact List.mem_filterMap.mpr ⟨kd, hkd, by rw [hc0]; rfl⟩
      · have := List.find?_some hc0
        simpa using this
    · rw [hsearch]
      have hpw := @List.sorted_mergeSort SearchResult
        (fun a b : SearchResult => decide (b.score ≤ a.score))
        (fun a b c hab hbc => by
          simp at hab hbc ⊢
          exact le_trans hbc hab)
        (fun a b => by
          simp
          exact le_total b.score a.score)
        ((vi.index.query qv top_k).filterMap (fun kd =>
          (vi.metadata.chunks.find? (fun c => c.id == kd.1)).map
            (fun c => SearchResult.mk c (1 - kd.2))))
      exact hpw.imp (fun h => by simpa using h)

/-- Witness for the C6 theorem: the fresh index has an empty store, so
its search result is empty. -/
theorem vectorindex_search_spec_witness :
    viFresh.search [] 5 = [] :=
  (vectorindex_search_spec viFresh [] 5).1 rfl

/-- The chunking loop emits at least one chunk when the buffer or the
remaining input is non-empty. -/
theorem chunkLoop_ne_nil (ck : Chunker) :
    ∀ (rest : List String) (i : Nat) (st : ChunkState),
      st.buffer ≠ [] ∨ rest ≠ [] → ck.chunkLoop rest i st ≠ [] := by
  intro rest
  induction rest with
  | nil =>
    intro i st h
    have hb : st.buffer ≠ [] := by
      rcases h with h | h
      · exact h
      · exact absurd rfl h
    simp only [Chunker.chunkLoop]
    rw [if_neg (by simpa [List.isEmpty_iff] using hb)]
    simp
  | cons line rest ih =>
    intro i st _
    simp only [Chunker.chunkLoop]
    by_cases hcond : ck.chunk_size < st.size + lineLen line ∧ st.buffer ≠ []
    · rw [if_pos hcond]
      simp
    · rw [if_neg hcond]
      exact ih (i + 1) _ (Or.inl (by simp))

/-- chunk_text on at least one line emits at least one chunk. -/
theorem chunk_text_ne_nil (ck : Chunker) (lines : List String) (fp fh : String)
    (sid : Nat) (h : lines ≠ []) : ck.chunk_text lines fp fh sid ≠ [] := by
  have hraw := chunkLoop_ne_nil ck lines 0 ⟨[], 0, 1, sid⟩ (Or.inr h)
  simp only [Chunker.chunk_text, Chunker.chunkRaw]
  rw [if_neg (by simpa [List.isEmpty_iff] using h)]
  simpa using hraw

/-- Every chunk produced by chunk_text carries the file path and file
hash it was called with. -/
theorem chunk_text_fields (ck : Chunker) (lines : List String) (fp fh : String)
    (sid : Nat) :
    ∀ c ∈ ck.chunk_text lines fp fh sid, c.file_path = fp ∧ c.file_hash = fh := by
  intro c hc
  simp only [Chunker.chunk_text] at hc
  by_cases he : lines.isEmpty
  · simp [he] at hc
  · simp only [he, Bool.false_eq_true, if_false, List.mem_map] at hc
    obtain ⟨r, _, rfl⟩ := hc
    exact ⟨rfl, rfl⟩

/-- Mapping injectively detects equal images in a list without
duplicate images. -/
theorem nodup_map_eq_of_eq {α β : Type} (f : α → β) :
    ∀ (l : List α), (l.map f).Nodup →
      ∀ a ∈ l, ∀ b ∈ l, f a = f b → a = b := by
  intro l
  induction l with
  | nil => simp
  | cons x t ih =>
    intro hnd a ha b hb hab
    rw [List.map_cons, List.nodup_cons] at hnd
    rcases List.mem_cons.mp ha with ha1 | ha1 <;>
      rcases List.mem_cons.mp hb with hb1 | hb1
    · rw [ha1, hb1]
    · subst ha1
      exact absurd (List.mem_map.mpr ⟨b, hb1, hab.symm⟩) hnd.1
    · subst hb1
      exact absurd (List.mem_map.mpr ⟨a, ha1, hab⟩) hnd.1
    · exact ih hnd.2 a ha1 b hb1 hab

/-- Folding erase over a duplicate-free list filters out the erased
values. -/
theorem foldl_erase_eq_filter :
    ∀ (ms : List String) (l : List String), l.Nodup →
      ms.foldl (fun acc x => acc.erase x) l = l.filter (fun x => ¬ x ∈ ms) := by
  intro ms
  induction ms with
  | nil =>
    intro l _
    simp
  | cons m rest ih =>
    intro l hl
    have hstep : (m :: rest).foldl (fun acc x => acc.erase x) l =
        rest.foldl (fun acc x => acc.erase x) (l.erase m) := rfl
    rw [hstep, ih (l.erase m) (hl.erase m)]
    rw [hl.erase_eq_filter m]
    rw [List.filter_filter]
    apply List.filter_congr
    intro x _
    by_cases hxm : x = m
    · simp [hxm]
    · simp [hxm]

/-- A filter keeping only elements outside a superset is empty. -/
theorem filter_not_mem_eq_nil (l ms : List String) (h : ∀ x ∈ l, x ∈ ms) :
    l.filter (fun x => ¬ x ∈ ms) = [] := by
  rw [List.filter_eq_nil_iff]
  intro a ha
  simp [h a ha]

/-- Folding hash insertions over chunks of other files leaves a lookup
unchanged. -/
theorem hmGet_fold_insert_of_not_mem :
    ∀ (cs : List Chunk) (m : List (String × String)) (p : String),
      (∀ c ∈ cs, c.file_path ≠ p) →
      hmGet (cs.foldl (fun m c => hmInsert m c.file_path c.file_hash) m) p = hmGet m p := by
  intro cs
  induction cs with
  | nil =>
    intro m p _
    rfl
  | cons c t ih =>
    intro m p h
    have hstep : ((c :: t).foldl (fun m c => hmInsert m c.file_path c.file_hash) m) =
        t.foldl (fun m c => hmInsert m c.file_path c.file_hash)
          (hmInsert m c.file_path c.file_hash) := rfl
    rw [hstep, ih _ p (fun d hd => h d (List.mem_cons_of_mem c hd)),
      hmGet_insert_ne _ _ _ _ (fun hc => h c (List.mem_cons_self c t) hc.symm)]

/-- Folding hash insertions over chunks that all agree on the hash of a
present file records exactly that hash. -/
theorem hmGet_fold_insert_of_mem :
    ∀ (cs : List Chunk) (m : List (String × String)) (p hv : String),
      (∃ c ∈ cs, c.file_path = p) →
      (∀ c ∈ cs, c.file_path = p → c.file_hash = hv) →
      hmGet (cs.foldl (fun m c => hmInsert m c.file_path c.file_hash) m) p = some hv := by
  intro cs
  induction cs with
  | nil =>
    intro m p hv hex _
    simp at hex
  | cons c t ih =>
    intro m p hv hex hall
    have hstep : ((c :: t).foldl (fun m c => hmInsert m c.file_path c.file_hash) m) =
        t.foldl (fun m c => hmInsert m c.file_path c.file_hash)
          (hmInsert m c.file_path c.file_hash) := rfl
    rw [hstep]
    by_cases htex : ∃ d ∈ t, d.file_path = p
    · exact ih _ p hv htex (fun d hd => hall d (List.mem_cons_of_mem c hd))
    · have hcp : c.file_path = p := by
        obtain ⟨d, hd, hdp⟩ := hex
        rcases List.mem_cons.mp hd with hd1 | hd1
        · rw [← hd1]
          exact hdp
        · exact absurd ⟨d, hd1, hdp⟩ htex
      rw [hmGet_fold_insert_of_not_mem t _ p
        (fun d hd hdp => htex ⟨d, hd, hdp⟩)]
      rw [hcp, hmGet_insert_self]
      rw [hall c (List.mem_cons_self c t) hcp]

/-- Folding hash insertions preserves distinctness of the stored keys. -/
theorem nodupKeys_fold_insert :
    ∀ (cs : List Chunk) (m : List (String × String)),
      (m.map (fun p => p.1)).Nodup →
      (((cs.foldl (fun m c => hmInsert m c.file_path c.file_hash) m)).map
        (fun p => p.1)).Nodup := by
  intro cs
  induction cs with
  | nil =>
    intro m h
    exact h
  | cons c t ih =>
    intro m h
    exact ih _ (nodupKeys_insert m c.file_path c.file_hash h)

/-- On equal counts, add_chunks records every chunk hash by folding
insertions over the chunk list. -/
theorem add_chunks_hashes (vi : VectorIndex) (chunks : List Chunk)
    (embeddings : List Vec) (h : chunks.length = embeddings.length) :
    (vi.add_chunks chunks embeddings).1.metadata.file_hashes =
      chunks.foldl (fun m c => hmInsert m c.file_path c.file_hash)
        vi.metadata.file_hashes := by
  simp [VectorIndex.add_chunks, h]

/-- The chunk accumulator of index_files only grows. -/
theorem index_files_fold_subset (ck : Chunker) :
    ∀ (files : List FileToIndex) (acc : List Chunk × Nat),
      ∀ c ∈ acc.1, c ∈ (files.foldl
        (fun (acc : List Chunk × Nat) f =>
          let cks := ck.chunk_text f.content f.relative_path f.hash acc.2
          (acc.1 ++ cks, acc.2 + cks.length)) acc).1 := by
  intro files
  induction files with
  | nil =>
    intro acc c hc
    exact hc
  | cons f rest ih =>
    intro acc c hc
    exact ih _ c (List.mem_append_left _ hc)

/-- Membership in the chunk accumulator of index_files: every chunk
either was already accumulated or carries the path and hash of one of
the folded files; and every folded file with content contributes at
least one chunk. -/
theorem index_files_fold_mem (ck : Chunker) :
    ∀ (files : List FileToIndex) (acc : List Chunk × Nat),
      (∀ c ∈ (files.foldl
          (fun (acc : List Chunk × Nat) f =>
            let cks := ck.chunk_text f.content f.relative_path f.hash acc.2
            (acc.1 ++ cks, acc.2 + cks.length)) acc).1,
        c ∈ acc.1 ∨ ∃ f ∈ files, c.file_path = f.relative_path ∧
          c.file_hash = f.hash) ∧
      (∀ f ∈ files, f.content ≠ [] →
        ∃ c ∈ (files.foldl
          (fun (acc : List Chunk × Nat) f =>
            let cks := ck.chunk_text f.content f.relative_path f.hash acc.2
            (acc.1 ++ cks, acc.2 + cks.length)) acc).1,
          c.file_path = f.relative_path ∧ c.file_hash = f.hash) := by
  intro files
  induction files with
  | nil =>
    intro acc
    constructor
    · intro c hc
      exact Or.inl hc
    · intro f hf
      simp at hf
  | cons f rest ih =>
    intro acc
    constructor
    · intro c hc
      rcases (ih _).1 c hc with h0 | ⟨g, hg, hgp, hgh⟩
      · rcases List.mem_append.mp h0 with h1 | h1
        · exact Or.inl h1
        · have := chunk_text_fields ck f.content f.relative_path f.hash acc.2 c h1
          exact Or.inr ⟨f, List.mem_cons_self f rest, this.1, this.2⟩
      · exact Or.inr ⟨g, List.mem_cons_of_mem f hg, hgp, hgh⟩
    · intro f0 hf0 hcont
      rcases List.mem_cons.mp hf0 with hf1 | hf1
      · obtain ⟨c0, hc0⟩ := List.exists_mem_of_ne_nil _
          (chunk_text_ne_nil ck f.content f.relative_path f.hash acc.2
            (by rw [hf1] at hcont; exact hcont))
        have hmem := index_files_fold_subset ck rest
          (acc.1 ++ ck.chunk_text f.content f.relative_path f.hash acc.2,
            acc.2 + (ck.chunk_text f.content f.relative_path f.hash acc.2).length)
          c0 (List.mem_append_right _ hc0)
        have hfield := chunk_text_fields ck f.content f.relative_path f.hash acc.2 c0 hc0
        refine ⟨c0, hmem, ?_, ?_⟩
        · rw [hfield.1, hf1]
        · rw [hfield.2, hf1]
      · exact (ih _).2 f0 hf1 hcont

/-- index_files leaves the hash entry of a path outside the folded files
unchanged. -/
theorem index_files_hash_of_not_mem (ck : Chunker) (embed : String → Vec)
    (vi : VectorIndex) (files : List FileToIndex) (p : String)
    (h : ∀ f ∈ files, f.relative_path ≠ p) :
    (Indexer.index_files ck embed vi files).get_file_hash p = vi.get_file_hash p := by
  simp only [Indexer.index_files]
  split
  · rfl
  · split
    · rfl
    · unfold VectorIndex.get_file_hash
      rw [add_chunks_hashes vi _ _ (by simp)]
      apply hmGet_fold_insert_of_not_mem
      intro c hc
      rcases (index_files_fold_mem ck files ([], vi.next_id)).1 c hc with
        h0 | ⟨f, hf, hfp, _⟩
      · simp at h0
      · rw [hfp]
        exact h f hf

/-- index_files records the hash of every folded file with content. -/
theorem index_files_hash_of_mem (ck : Chunker) (embed : String → Vec)
    (vi : VectorIndex) (files : List FileToIndex) (f : FileToIndex)
    (hnodup : (files.map (fun f => f.relative_path)).Nodup)
    (hf : f ∈ files) (hcont : f.content ≠ []) :
    (Indexer.index_files ck embed vi files).get_file_hash f.relative_path =
      some f.hash := by
  simp only [Indexer.index_files]
  split
  · rename_i hfe
    rw [List.isEmpty_iff.mp hfe] at hf
    simp at hf
  · split
    · rename_i hce
      exfalso
      obtain ⟨c, hc, _⟩ := (index_files_fold_mem ck files ([], vi.next_id)).2 f hf hcont
      rw [List.isEmpty_iff.mp hce] at hc
      simp at hc
    · unfold VectorIndex.get_file_hash
      rw [add_chunks_hashes vi _ _ (by simp)]
      apply hmGet_fold_insert_of_mem
      · obtain ⟨c, hc, hcp, _⟩ :=
          (index_files_fold_mem ck files ([], vi.next_id)).2 f hf hcont
        exact ⟨c, hc, hcp⟩
      · intro c hc hcp
        rcases (index_files_fold_mem ck files ([], vi.next_id)).1 c hc with
          h0 | ⟨g, hg, hgp, hgh⟩
        · simp at h0
        · have hgf : g = f := nodup_map_eq_of_eq _ files hnodup g hg f hf
            (by rw [← hgp, hcp])
          rw [hgh, hgf]

/-- index_files preserves distinctness of the stored hash keys. -/
theorem index_files_nodup_keys (ck : Chunker) (embed : String → Vec)
    (vi : VectorIndex) (files : List FileToIndex)
    (h : (vi.metadata.file_hashes.map (fun p => p.1)).Nodup) :
    (((Indexer.index_files ck embed vi files).metadata.file_hashes).map
      (fun p => p.1)).Nodup := by
  simp only [Indexer.index_files]
  split
  · exact h
  · split
    · exact h
    · rw [add_chunks_hashes vi _ _ (by simp)]
      exact nodupKeys_fold_insert _ _ h

/-- Folding remove_file over a path list clears exactly the hash
entries of those paths and preserves key distinctness. -/
theorem remove_fold_spec :
    ∀ (ps : List String) (vi : VectorIndex),
      (∀ p ∈ ps,
        (ps.foldl (fun vi p => (vi.remove_file p).1) vi).get_file_hash p = none) ∧
      (∀ q, q ∉ ps →
        (ps.foldl (fun vi p => (vi.remove_file p).1) vi).get_file_hash q =
          vi.get_file_hash q) ∧
      ((vi.metadata.file_hashes.map (fun p => p.1)).Nodup →
        (((ps.foldl (fun vi p => (vi.remove_file p).1) vi).metadata.file_hashes).map
          (fun p => p.1)).Nodup) := by
  intro ps
  induction ps with
  | nil =>
    intro vi
    refine ⟨by simp, fun q _ => rfl, fun h => h⟩
  | cons p rest ih =>
    intro vi
    refine ⟨?_, ?_, ?_⟩
    · intro q0 hq0
      rw [List.foldl_cons]
      rcases List.mem_cons.mp hq0 with hq1 | hq1
      · subst hq1
        by_cases hmem : q0 ∈ rest
        · exact (ih _).1 q0 hmem
        · rw [(ih _).2.1 q0 hmem]
          exact hmGet_erase_self _ _
      · exact (ih _).1 q0 hq1
    · intro q hq
      have hq1 : q ≠ p := fun hc => hq (hc ▸ List.mem_cons_self p rest)
      have hq2 : q ∉ rest := fun hc => hq (List.mem_cons_of_mem p hc)
      rw [List.foldl_cons, (ih _).2.1 q hq2]
      exact hmGet_erase_ne _ _ _ hq1
    · intro hnd
      exact (ih _).2.2 (nodupKeys_erase _ _ hnd)

/-- First-run characterization of the partition loop of update_index
over discovered files with distinct paths: the enqueued files are
exactly those whose stored hash is absent or different; hash lookups of
paths outside the discovery and of unchanged files are preserved; the
pending-removal set evolves by erasing each discovered path; and key
distinctness is preserved. -/
theorem updateStep_fold_general :
    ∀ (F : List FileToIndex) (st : UpdateLoopState),
      (F.map (fun f => f.relative_path)).Nodup →
      ((F.foldl updateStep st).files_to_add = st.files_to_add ++
          F.filter (fun f => ¬ st.vi.get_file_hash f.relative_path = some f.hash)) ∧
        (∀ p, p ∉ F.map (fun f => f.relative_path) →
          (F.foldl updateStep st).vi.get_file_hash p = st.vi.get_file_hash p) ∧
        (∀ f ∈ F, st.vi.get_file_hash f.relative_path = some f.hash →
          (F.foldl updateStep st).vi.get_file_hash f.relative_path = some f.hash) ∧
        ((F.foldl updateStep st).files_to_remove =
          F.foldl (fun l f => l.erase f.relative_path) st.files_to_remove) ∧
        ((st.vi.metadata.file_hashes.map (fun p => p.1)).Nodup →
          (((F.foldl updateStep st).vi.metadata.file_hashes).map
            (fun p => p.1)).Nodup) := by
  intro F
  induction F with
  | nil =>
    intro st _
    exact ⟨by simp, fun p _ => rfl, by simp, rfl, fun h => h⟩
  | cons f rest ih =>
    intro st hnodup
    rw [List.map_cons, List.nodup_cons] at hnodup
    have hforeign : ∀ g ∈ rest, g.relative_path ≠ f.relative_path := by
      intro g hg hc
      exact hnodup.1 (hc ▸ List.mem_map_of_mem _ hg)
    cases hmatch : st.vi.get_file_hash f.relative_path with
    | some h0 =>
      by_cases hh : h0 = f.hash
      · -- unchanged branch
        have hstep : updateStep st f = ⟨st.vi,
            ⟨st.stats.added, st.stats.updated, st.stats.removed,
              st.stats.unchanged + 1⟩,
            st.files_to_remove.erase f.relative_path, st.files_to_add⟩ := by
          unfold updateStep
          rw [hmatch]
          simp [hh]
        have hih := ih ⟨st.vi,
          ⟨st.stats.added, st.stats.updated, st.stats.removed,
            st.stats.unchanged + 1⟩,
          st.files_to_remove.erase f.relative_path, st.files_to_add⟩ hnodup.2
        have hpredf : (¬ st.vi.get_file_hash f.relative_path = some f.hash) = False := by
          simp [hmatch, hh]
        refine ⟨?_, ?_, ?_, ?_, ?_⟩
        · show (rest.foldl updateStep (updateStep st f)).files_to_add = _
          rw [hstep]
          rw [hih.1]
          rw [List.filter_cons]
          simp only [hpredf]
          simp
        · intro p hp
          show (rest.foldl updateStep (updateStep st f)).vi.get_file_hash p = _
          rw [hstep]
          exact hih.2.1 p (fun hc => hp (List.mem_cons_of_mem _ hc))
        · intro f0 hf0 hsome
          show (rest.foldl updateStep (updateStep st f)).vi.get_file_hash
            f0.relative_path = _
          rw [hstep]
          rcases List.mem_cons.mp hf0 with hf1 | hf1
          · subst hf1
            rw [hih.2.1 f0.relative_path (fun hc => hnodup.1 hc)]
            exact hsome
          · exact hih.2.2.1 f0 hf1 hsome
        · show (rest.foldl updateStep (updateStep st f)).files_to_remove = _
          rw [hstep]
          exact hih.2.2.2.1
        · intro hnd
          show (((rest.foldl updateStep (updateStep st f)).vi.metadata.file_hashes).map
            (fun p => p.1)).Nodup
          rw [hstep]
          exact hih.2.2.2.2 hnd
      · -- updated branch
        have hstep : updateStep st f = ⟨(st.vi.remove_file f.relative_path).1,
            ⟨st.stats.added, st.stats.updated + 1, st.stats.removed,
              st.stats.unchanged⟩,
            st.files_to_remove.erase f.relative_path,
            st.files_to_add ++ [f]⟩ := by
          unfold updateStep
          rw [hmatch]
          simp [hh]
        have hih := ih ⟨(st.vi.remove_file f.relative_path).1,
          ⟨st.stats.added, st.stats.updated + 1, st.stats.removed,
            st.stats.unchanged⟩,
          st.files_to_remove.erase f.relative_path,
          st.files_to_add ++ [f]⟩ hnodup.2
        have hlook : ∀ q, q ≠ f.relative_path →
            (st.vi.remove_file f.relative_path).1.get_file_hash q =
              st.vi.get_file_hash q := by
          intro q hq
          exact hmGet_erase_ne _ _ _ hq
        have hfilter : rest.filter (fun g =>
            ¬ (st.vi.remove_file f.relative_path).1.get_file_hash g.relative_path =
              some g.hash) = rest.filter (fun g =>
            ¬ st.vi.get_file_hash g.relative_path = some g.hash) := by
          apply List.filter_congr
          intro g hg
          rw [hlook g.relative_path (hforeign g hg)]
        have hpredf : (¬ st.vi.get_file_hash f.relative_path = some f.hash) = True := by
          simp [hmatch, hh]
        refine ⟨?_, ?_, ?_, ?_, ?_⟩
        · show (rest.foldl updateStep (updateStep st f)).files_to_add = _
          rw [hstep, hih.1]
          simp only [hfilter]
          rw [List.filter_cons]
          simp only [hpredf]
          simp
        · intro p hp
          show (rest.foldl updateStep (updateStep st f)).vi.get_file_hash p = _
          rw [hstep, hih.2.1 p (fun hc => hp (List.mem_cons_of_mem _ hc))]
          exact hlook p (fun hc => hp (hc ▸ List.mem_cons_self _ _))
        · intro f0 hf0 hsome
          show (rest.foldl updateStep (updateStep st f)).vi.get_file_hash
            f0.relative_path = _
          rcases List.mem_cons.mp hf0 with hf1 | hf1
          · exfalso
            rw [hf1] at hsome
            rw [hsome] at hmatch
            injection hmatch with hinj
            exact hh hinj.symm
          · rw [hstep]
            exact hih.2.2.1 f0 hf1 (by
              rw [hlook f0.relative_path (hforeign f0 hf1)]
              exact hsome)
        · show (rest.foldl updateStep (updateStep st f)).files_to_remove = _
          rw [hstep]
          exact hih.2.2.2.1
        · intro hnd
          show (((rest.foldl updateStep (updateStep st f)).vi.metadata.file_hashes).map
            (fun p => p.1)).Nodup
          rw [hstep]
          exact hih.2.2.2.2 (nodupKeys_erase _ _ hnd)
    | none =>
      -- added branch
      have hstep : updateStep st f = ⟨st.vi,
          ⟨st.stats.added + 1, st.stats.updated, st.stats.removed,
            st.stats.unchanged⟩,
          st.files_to_remove.erase f.relative_path,
          st.files_to_add ++ [f]⟩ := by
        unfold updateStep
        rw [hmatch]
      have hih := ih ⟨st.vi,
        ⟨st.stats.added + 1, st.stats.updated, st.stats.removed,
          st.stats.unchanged⟩,
        st.files_to_remove.erase f.relative_path,
        st.files_to_add ++ [f]⟩ hnodup.2
      have hpredf : (¬ st.vi.get_file_hash f.relative_path = some f.hash) = True := by
        simp [hmatch]
      refine ⟨?_, ?_, ?_, ?_, ?_⟩
      · show (rest.foldl updateStep (updateStep st f)).files_to_add = _
        rw [hstep, hih.1]
        rw [List.filter_cons]
        simp only [hpredf]
        simp
      · intro p hp
        show (rest.foldl updateStep (updateStep st f)).vi.get_file_hash p = _
        rw [hstep]
        exact hih.2.1 p (fun hc => hp (List.mem_cons_of_mem _ hc))
      · intro f0 hf0 hsome
        show (rest.foldl updateStep (updateStep st f)).vi.get_file_hash
          f0.relative_path = _
        rw [hstep]
        rcases List.mem_cons.mp hf0 with hf1 | hf1
        · exfalso
          rw [hf1] at hsome
          rw [hsome] at hmatch
          exact Option.noConfusion hmatch
        · exact hih.2.2.1 f0 hf1 hsome
      · show (rest.foldl updateStep (updateStep st f)).files_to_remove = _
        rw [hstep]
        exact hih.2.2.2.1
      · intro hnd
        show (((rest.foldl updateStep (updateStep st f)).vi.metadata.file_hashes).map
          (fun p => p.1)).Nodup
        rw [hstep]
        exact hih.2.2.2.2 hnd

/-- Second-run characterization of the partition loop: when every
discovered file already has its hash stored, the loop leaves the index
and the enqueue untouched and only counts every file as unchanged while
erasing its path from the pending-removal set. -/
theorem updateStep_fold_unchanged :
    ∀ (F : List FileToIndex) (st : UpdateLoopState),
      (∀ f ∈ F, st.vi.get_file_hash f.relative_path = some f.hash) →
      (F.foldl updateStep st).vi = st.vi ∧
        (F.foldl updateStep st).stats = ⟨st.stats.added, st.stats.updated,
          st.stats.removed, st.stats.unchanged + F.length⟩ ∧
        (F.foldl updateStep st).files_to_add = st.files_to_add ∧
        (F.foldl updateStep st).files_to_remove =
          F.foldl (fun l f => l.erase f.relative_path) st.files_to_remove := by
  intro F
  induction F with
  | nil =>
    intro st _
    exact ⟨rfl, rfl, rfl, rfl⟩
  | cons f rest ih =>
    intro st hall
    have hmatch := hall f (List.mem_cons_self f rest)
    have hstep : updateStep st f = ⟨st.vi,
        ⟨st.stats.added, st.stats.updated, st.stats.removed,
          st.stats.unchanged + 1⟩,
        st.files_to_remove.erase f.relative_path, st.files_to_add⟩ := by
      unfold updateStep
      rw [hmatch]
      simp
    have hih := ih ⟨st.vi, ⟨st.stats.added, st.stats.updated, st.stats.removed,
        st.stats.unchanged + 1⟩,
      st.files_to_remove.erase f.relative_path, st.files_to_add⟩
      (fun g hg => hall g (List.mem_cons_of_mem f hg))
    refine ⟨?_, ?_, ?_, ?_⟩
    · show (rest.foldl updateStep (updateStep st f)).vi = st.vi
      rw [hstep]
      exact hih.1
    · show (rest.foldl updateStep (updateStep st f)).stats = _
      rw [hstep, hih.2.1]
      have harith : st.stats.unchanged + 1 + rest.length =
          st.stats.unchanged + (f :: rest).length := by
        simp
        omega
      rw [harith]
    · show (rest.foldl updateStep (updateStep st f)).files_to_add = st.files_to_add
      rw [hstep]
      exact hih.2.2.1
    · show (rest.foldl updateStep (updateStep st f)).files_to_remove = _
      rw [hstep]
      exact hih.2.2.2

/-- The index returned by update_index, spelled as the composition of
the partition loop, the removal loop and the re-indexing step. -/
theorem update_index_fst (ck : Chunker) (embed : String → Vec) (vi : VectorIndex)
    (F : List FileToIndex) :
    (Indexer.update_index ck embed vi F).1 =
      Indexer.index_files ck embed
        (((F.foldl updateStep
            ⟨vi, UpdateStats.default, vi.indexed_files, []⟩).files_to_remove).foldl
          (fun vi p => (vi.remove_file p).1)
          (F.foldl updateStep ⟨vi, UpdateStats.default, vi.indexed_files, []⟩).vi)
        (F.foldl updateStep
          ⟨vi, UpdateStats.default, vi.indexed_files, []⟩).files_to_add := rfl

/-- The statistics returned by update_index, spelled from the partition
loop result. -/
theorem update_index_snd (ck : Chunker) (embed : String → Vec) (vi : VectorIndex)
    (F : List FileToIndex) :
    (Indexer.update_index ck embed vi F).2 =
      ⟨(F.foldl updateStep ⟨vi, UpdateStats.default, vi.indexed_files, []⟩).stats.added,
        (F.foldl updateStep
          ⟨vi, UpdateStats.default, vi.indexed_files, []⟩).stats.updated,
        (F.foldl updateStep
          ⟨vi, UpdateStats.default, vi.indexed_files, []⟩).files_to_remove.length,
        (F.foldl updateStep
          ⟨vi, UpdateStats.default, vi.indexed_files, []⟩).stats.unchanged⟩ := rfl

/-- After one run of update_index over discovered files with distinct
paths and non-empty contents, the stored hash map holds exactly the
discovered paths with their discovered hashes, and its keys stay
distinct. -/
theorem update_index_establishes (ck : Chunker) (embed : String → Vec)
    (vi0 : VectorIndex) (F : List FileToIndex)
    (hnodupF : (F.map (fun f => f.relative_path)).Nodup)
    (hnodup0 : (vi0.metadata.file_hashes.map (fun p => p.1)).Nodup)
    (hcontent : ∀ f ∈ F, f.content ≠ []) :
    (∀ f ∈ F, (Indexer.update_index ck embed vi0 F).1.get_file_hash
        f.relative_path = some f.hash) ∧
      (∀ p, p ∉ F.map (fun f => f.relative_path) →
        (Indexer.update_index ck embed vi0 F).1.get_file_hash p = none) ∧
      (((Indexer.update_index ck embed vi0 F).1.metadata.file_hashes.map
        (fun p => p.1)).Nodup) := by
  have hA := updateStep_fold_general F
    ⟨vi0, UpdateStats.default, vi0.indexed_files, []⟩ hnodupF
  set st1 := F.foldl updateStep
    ⟨vi0, UpdateStats.default, vi0.indexed_files, []⟩ with hst1
  have hadd : st1.files_to_add =
      F.filter (fun f => ¬ vi0.get_file_hash f.relative_path = some f.hash) := by
    have h0 := hA.1
    simpa using h0
  have hrem : st1.files_to_remove = vi0.indexed_files.filter
      (fun x => ¬ x ∈ F.map (fun f => f.relative_path)) := by
    have h0 := hA.2.2.2.1
    rw [h0]
    show F.foldl (fun l f => l.erase f.relative_path) vi0.indexed_files = _
    rw [← List.foldl_map (fun f : FileToIndex => f.relative_path)
      (fun acc x => acc.erase x) F vi0.indexed_files]
    exact foldl_erase_eq_filter (F.map fun f => f.relative_path)
      vi0.indexed_files hnodup0
  have hkeysub : ∀ g ∈ st1.files_to_add,
      g ∈ F ∧ ¬ vi0.get_file_hash g.relative_path = some g.hash := by
    intro g hg
    rw [hadd] at hg
    have h0 := List.mem_filter.mp hg
    exact ⟨h0.1, by simpa using h0.2⟩
  have haddnodup : (st1.files_to_add.map (fun f => f.relative_path)).Nodup := by
    rw [hadd]
    exact List.Nodup.sublist (List.Sublist.map _ (List.filter_sublist F)) hnodupF
  refine ⟨?_, ?_, ?_⟩
  · intro f hf
    rw [update_index_fst, ← hst1]
    by_cases hsome : vi0.get_file_hash f.relative_path = some f.hash
    · have hnotin : ∀ g ∈ st1.files_to_add, g.relative_path ≠ f.relative_path := by
        intro g hg hc
        have h1 := hkeysub g hg
        have hgf : g = f := nodup_map_eq_of_eq _ F hnodupF g h1.1 f hf hc
        rw [hgf] at h1
        exact h1.2 hsome
      rw [index_files_hash_of_not_mem ck embed _ _ _ hnotin]
      have hnotTR : f.relative_path ∉ st1.files_to_remove := by
        rw [hrem]
        intro hmem
        have h2 := (List.mem_filter.mp hmem).2
        simp at h2
        exact h2 f hf rfl
      rw [(remove_fold_spec st1.files_to_remove st1.vi).2.1 f.relative_path hnotTR]
      exact hA.2.2.1 f hf hsome
    · have hfE : f ∈ st1.files_to_add := by
        rw [hadd]
        exact List.mem_filter.mpr ⟨hf, by simpa using hsome⟩
      exact index_files_hash_of_mem ck embed _ _ f haddnodup hfE (hcontent f hf)
  · intro p hp
    rw [update_index_fst, ← hst1]
    have hnotinE : ∀ g ∈ st1.files_to_add, g.relative_path ≠ p := by
      intro g hg hc
      exact hp (hc ▸ List.mem_map_of_mem _ (hkeysub g hg).1)
    rw [index_files_hash_of_not_mem ck embed _ _ _ hnotinE]
    by_cases h0 : vi0.get_file_hash p = none
    · have hnotTR : p ∉ st1.files_to_remove := by
        rw [hrem]
        intro hmem
        have hmem1 := (List.mem_filter.mp hmem).1
        have h1 : p ∉ vi0.metadata.file_hashes.map (fun q => q.1) :=
          (hmGet_eq_none_iff vi0.metadata.file_hashes p).mp h0
        exact h1 hmem1
      rw [(remove_fold_spec st1.files_to_remove st1.vi).2.1 p hnotTR]
      rw [hA.2.1 p hp]
      exact h0
    · have hpTR : p ∈ st1.files_to_remove := by
        rw [hrem]
        refine List.mem_filter.mpr ⟨?_, by simpa using hp⟩
        by_contra hnk
        exact h0 ((hmGet_eq_none_iff vi0.metadata.file_hashes p).mpr hnk)
      exact (remove_fold_spec st1.files_to_remove st1.vi).1 p hpTR
  · rw [update_index_fst, ← hst1]
    apply index_files_nodup_keys
    exact (remove_fold_spec st1.files_to_remove st1.vi).2.2 (hA.2.2.2.2 hnodup0)

/-- C3 (amended). When the two discoveries agree (same paths, contents
and hashes, modelled by passing the same file list twice), the paths are
distinct, every discovered file has at least one line, and the hash map
keys of the starting index are distinct (an invariant of the HashMap it
models), the second update_index returns
UpdateStats { added 0, updated 0, removed 0, unchanged N } with N the
number of discovered files. The non-empty-content proviso is forced by
the counterexample: a file with empty content produces no chunks, so its
hash is never recorded and it is re-counted as added on every run. -/
theorem update_index_twice_stats (ck : Chunker) (embed : String → Vec)
    (vi0 : VectorIndex) (F : List FileToIndex)
    (hnodupF : (F.map (fun f => f.relative_path)).Nodup)
    (hnodup0 : (vi0.metadata.file_hashes.map (fun p => p.1)).Nodup)
    (hcontent : ∀ f ∈ F, f.content ≠ []) :
    (Indexer.update_index ck embed (Indexer.update_index ck embed vi0 F).1 F).2 =
      ⟨0, 0, 0, F.length⟩ := by
  obtain ⟨h1, h2, h3⟩ := update_index_establishes ck embed vi0 F hnodupF hnodup0
    hcontent
  set vi1 := (Indexer.update_index ck embed vi0 F).1 with hvi1
  have hU := updateStep_fold_unchanged F
    ⟨vi1, UpdateStats.default, vi1.indexed_files, []⟩ (fun f hf => h1 f hf)
  set st1 := F.foldl updateStep
    ⟨vi1, UpdateStats.default, vi1.indexed_files, []⟩ with hst1
  have hsub : ∀ p ∈ vi1.indexed_files, p ∈ F.map (fun f => f.relative_path) := by
    intro p hp
    by_contra hnp
    have hnone := h2 p hnp
    have h4 : p ∉ vi1.metadata.file_hashes.map (fun q => q.1) :=
      (hmGet_eq_none_iff vi1.metadata.file_hashes p).mp hnone
    exact h4 hp
  have hTR : st1.files_to_remove = [] := by
    rw [hU.2.2.2]
    show F.foldl (fun l f => l.erase f.relative_path) vi1.indexed_files = _
    rw [← List.foldl_map (fun f : FileToIndex => f.relative_path)
      (fun acc x => acc.erase x) F vi1.indexed_files]
    rw [foldl_erase_eq_filter (F.map fun f => f.relative_path)
      vi1.indexed_files h3]
    exact filter_not_mem_eq_nil _ _ hsub
  rw [update_index_snd, ← hst1]
  rw [hU.2.1, hTR]
  simp [UpdateStats.default]

/-- C3 counterexample: a single discovered file with empty content. The
first update_index counts it as added but records no hash (its chunk
list is empty, so add_chunks is never reached), hence the second run
over the identical discovery again returns added 1 and unchanged 0,
not UpdateStats { added 0, updated 0, removed 0, unchanged 1 }. -/
theorem update_index_not_idempotent_on_empty_file :
    (Indexer.update_index (Chunker.mk 100 20) embedZero
        (Indexer.update_index (Chunker.mk 100 20) embedZero viFresh
          [fileEmptyContent]).1 [fileEmptyContent]).2 = ⟨1, 0, 0, 0⟩ := by
  decide

/-- Witness for the amended C3 theorem: on one discovered one-line file
the second run reports every counter zero except unchanged = 1. -/
theorem update_index_twice_stats_witness :
    (Indexer.update_index (Chunker.mk 100 20) embedZero
        (Indexer.update_index (Chunker.mk 100 20) embedZero viFresh
          [fileOneLine]).1 [fileOneLine]).2 = ⟨0, 0, 0, 1⟩ :=
  update_index_twice_stats (Chunker.mk 100 20) embedZero viFresh [fileOneLine]
    (by decide) (by decide) (by decide)

/-- Witness for the amended C10 theorem at concrete inputs: the chain of
shared-line facts over the chunks of a concrete three-line input with
overlap 0. -/
theorem chunk_consecutive_chunks_share_line_witness :
    List.Chain' (fun r r2 => (∃ l, l ∈ r.lines ∧ l ∈ r2.lines) ∧
      ((Chunker.mk 5 0).overlap = 0 → r.lines.getLast? = r2.lines.head?))
      ((Chunker.mk 5 0).chunkRaw ["aaaa", "bbbb", "cccc"] 0) :=
  chunk_consecutive_chunks_share_line (Chunker.mk 5 0) ["aaaa", "bbbb", "cccc"] 0
